import Mathlib

/-!
Verification development for the RAG ingestion pipeline.

Texts are modelled as `List Char`. Functions are shallow embeddings of the
TypeScript sources:
  * `chunkText`      — `src/lib/chunker.ts` (sliding-window chunker)
  * `withRetry`      — ingestion script, rate-limit retry loop
  * `splitByPages`   — ingestion script, `[PAGE n]` marker splitter
  * `ocrJoin`        — ingestion script, OCR marker-insertion step
  * `extractTextSmart` — ingestion script, native-vs-OCR selection
  * `ingestRun`      — ingestion script, driver loop (rows appended to the DB)
  * limiter state machine — ingestion script, `createLimiter`
-/

set_option maxRecDepth 16000

/-- Model of the JS whitespace test used in the chunker and trimming. -/
def isWsChar (c : Char) : Bool := c.isWhitespace

/-- Model of `text.replace(/\s+/g, " ")`: every maximal whitespace run is
replaced by one space. -/
def collapseWs : List Char → List Char
  | [] => []
  | [c] => if isWsChar c then [' '] else [c]
  | c :: d :: rest =>
    if isWsChar c && isWsChar d then collapseWs (d :: rest)
    else (if isWsChar c then ' ' else c) :: collapseWs (d :: rest)

/-- Leading-whitespace removal. -/
def trimLeft (s : List Char) : List Char := s.dropWhile isWsChar

/-- Trailing-whitespace removal. -/
def trimRight (s : List Char) : List Char := (s.reverse.dropWhile isWsChar).reverse

/-- Model of `String.prototype.trim`. -/
def trimChars (s : List Char) : List Char := trimRight (trimLeft s)

/-- The normalized text of the chunker: `text.replace(/\s+/g, " ").trim()`. -/
def cleanOf (text : List Char) : List Char := trimChars (collapseWs text)

/-- The chunker's loop (`while (i < clean.length) { ... i += chunkSize - overlap }`),
with the step precomputed and a fuel argument bounding iterations; fuel
`clean.length` is enough whenever the step is positive (each iteration
advances the offset by at least one). -/
def chunkStepGo (clean : List Char) (size step : Nat) : Nat → Nat → List (List Char)
  | 0, _ => []
  | fuel + 1, i =>
    if i < clean.length then
      (let part := trimChars ((clean.drop i).take size)
       if 60 < part.length then [part] else []) ++
      chunkStepGo clean size step fuel (i + step)
    else []

/-- Model of `chunkText(text, chunkSize, overlap)` from `src/lib/chunker.ts`. -/
def chunkText (text : List Char) (chunkSize overlap : Nat) : List (List Char) :=
  let clean := cleanOf text
  chunkStepGo clean chunkSize (chunkSize - overlap) clean.length 0

/-- The sequence of window starting offsets visited by the chunker loop. -/
def chunkOffsetsGo (len step : Nat) : Nat → Nat → List Nat
  | 0, _ => []
  | fuel + 1, i => if i < len then i :: chunkOffsetsGo len step fuel (i + step) else []

/-- Offsets visited by `chunkText` on a normalized text of length `len`. -/
def chunkOffsets (len step : Nat) : List Nat := chunkOffsetsGo len step len 0

/-- The (pre-trim) window of `size` characters at offset `j`,
`clean.slice(j, j + size)`. -/
def windowAt (clean : List Char) (size j : Nat) : List Char := (clean.drop j).take size

/-- The offset of the chunker loop before iteration `k`, over JS number
semantics: `k * (chunkSize - overlap)` as a (possibly negative) integer. -/
def jsChunkOffset (chunkSize overlap k : Nat) : Int :=
  (k : Int) * ((chunkSize : Int) - (overlap : Int))

section TextLemmas

theorem collapseWs_length_le (s : List Char) : (collapseWs s).length ≤ s.length := by
  induction s with
  | nil => simp [collapseWs]
  | cons c rest ih =>
    cases rest with
    | nil => unfold collapseWs; split <;> simp
    | cons d r =>
      unfold collapseWs
      split
      · exact Nat.le_trans ih (Nat.le_succ _)
      · split <;> simpa using ih

theorem length_dropWhile_le (p : Char → Bool) (l : List Char) :
    (l.dropWhile p).length ≤ l.length := by
  induction l with
  | nil => simp
  | cons c rest ih =>
    rw [List.dropWhile_cons]
    split
    · exact Nat.le_trans ih (Nat.le_succ _)
    · simp

theorem trimLeft_length_le (s : List Char) : (trimLeft s).length ≤ s.length :=
  length_dropWhile_le isWsChar s

theorem trimRight_length_le (s : List Char) : (trimRight s).length ≤ s.length := by
  unfold trimRight
  calc (s.reverse.dropWhile isWsChar).reverse.length
      = (s.reverse.dropWhile isWsChar).length := List.length_reverse _
    _ ≤ s.reverse.length := length_dropWhile_le isWsChar s.reverse
    _ = s.length := List.length_reverse _

theorem cleanOf_length_le (s : List Char) : (cleanOf s).length ≤ s.length :=
  Nat.le_trans (trimRight_length_le _)
    (Nat.le_trans (trimLeft_length_le _) (collapseWs_length_le s))

theorem dropWhile_dropWhile (p : Char → Bool) (l : List Char) :
    (l.dropWhile p).dropWhile p = l.dropWhile p := by
  induction l with
  | nil => simp
  | cons c rest ih =>
    by_cases h : p c
    · simpa [List.dropWhile_cons, h] using ih
    · simp [List.dropWhile_cons, h]

theorem head_dropWhile_false (p : Char → Bool) (l : List Char) :
    ∀ c rest, l.dropWhile p = c :: rest → p c = false := by
  induction l with
  | nil => intro c rest h; simp at h
  | cons a l ih =>
    intro c rest h
    by_cases ha : p a
    · exact ih c rest (by simpa [List.dropWhile_cons, ha] using h)
    · rw [List.dropWhile_cons] at h
      simp [ha] at h
      rw [← h.1]
      simpa using ha

/-- A list whose head and last element (if any) are non-whitespace is unchanged
by trimming. -/
theorem trimLeft_eq_self_of_head (l : List Char) :
    (∀ c rest, l = c :: rest → isWsChar c = false) → trimLeft l = l := by
  intro h
  cases l with
  | nil => rfl
  | cons c rest =>
    unfold trimLeft
    rw [List.dropWhile_cons]
    simp [h c rest rfl]

theorem trimLeft_trimLeft (l : List Char) : trimLeft (trimLeft l) = trimLeft l :=
  dropWhile_dropWhile _ _

theorem trimRight_trimRight (l : List Char) : trimRight (trimRight l) = trimRight l := by
  unfold trimRight
  rw [List.reverse_reverse, dropWhile_dropWhile]

/-- `trimRight l` is an initial segment of `l`. -/
theorem trimRight_append_ex (l : List Char) : ∃ t, trimRight l ++ t = l := by
  obtain ⟨t, ht⟩ := (l.reverse.dropWhile_suffix isWsChar)
  refine ⟨t.reverse, ?_⟩
  unfold trimRight
  have := congrArg List.reverse ht
  simpa [List.reverse_append] using this

/-- Trimming is idempotent. -/
theorem trimChars_idem (s : List Char) : trimChars (trimChars s) = trimChars s := by
  unfold trimChars
  obtain ⟨t, ht⟩ := trimRight_append_ex (trimLeft s)
  have hTL : trimLeft (trimRight (trimLeft s)) = trimRight (trimLeft s) := by
    cases hcase : trimRight (trimLeft s) with
    | nil => simp [trimLeft]
    | cons c r =>
      refine trimLeft_eq_self_of_head _ ?_
      intro c' rest' hc
      injection hc with h1 h2
      subst h1
      have hhead : s.dropWhile isWsChar = c :: (r ++ t) := by
        have := ht
        rw [hcase] at this
        simpa [trimLeft] using this.symm
      exact head_dropWhile_false isWsChar s c (r ++ t) hhead
  rw [hTL, trimRight_trimRight]

end TextLemmas

section ChunkerLemmas

theorem trimChars_cleanOf (T : List Char) : trimChars (cleanOf T) = cleanOf T :=
  trimChars_idem (collapseWs T)

theorem chunkStepGo_stop (clean : List Char) (size step fuel i : Nat)
    (h : clean.length ≤ i) : chunkStepGo clean size step fuel i = [] := by
  cases fuel <;> simp [chunkStepGo, Nat.not_lt.mpr h]

/-- The loop of `chunkText` emits the trimmed windows at the visited offsets
that exceed the 60-character floor. -/
theorem chunkStepGo_eq_offsets (clean : List Char) (size step : Nat) :
    ∀ fuel i, chunkStepGo clean size step fuel i =
      ((chunkOffsetsGo clean.length step fuel i).map
        (fun j => trimChars (windowAt clean size j))).filter
        (fun part => decide (60 < part.length)) := by
  intro fuel
  induction fuel with
  | zero => intro i; simp [chunkStepGo, chunkOffsetsGo]
  | succ n ih =>
    intro i
    by_cases h : i < clean.length
    · simp only [chunkStepGo, chunkOffsetsGo, h, if_pos, List.map_cons, List.filter_cons]
      rw [ih]
      by_cases h60 : 60 < (trimChars ((clean.drop i).take size)).length
      · simp [windowAt, h60]
      · simp [windowAt, h60]
    · simp [chunkStepGo, chunkOffsetsGo, h]

theorem chunkText_eq_offsets (T : List Char) (chunkSize overlap : Nat) :
    chunkText T chunkSize overlap =
      ((chunkOffsets (cleanOf T).length (chunkSize - overlap)).map
        (fun j => trimChars (windowAt (cleanOf T) chunkSize j))).filter
        (fun part => decide (60 < part.length)) :=
  chunkStepGo_eq_offsets (cleanOf T) chunkSize (chunkSize - overlap) (cleanOf T).length 0

theorem chunkOffsetsGo_getD (len step : Nat) :
    ∀ fuel i k, k < (chunkOffsetsGo len step fuel i).length →
      (chunkOffsetsGo len step fuel i).getD k 0 = i + k * step := by
  intro fuel
  induction fuel with
  | zero => intro i k hk; simp [chunkOffsetsGo] at hk
  | succ n ih =>
    intro i k hk
    by_cases h : i < len
    · simp only [chunkOffsetsGo, h, if_pos] at hk ⊢
      cases k with
      | zero => simp
      | succ m =>
        simp only [List.getD_cons_succ]
        rw [ih (i + step) m (by simpa using Nat.lt_of_succ_lt_succ hk)]
        ring
    · simp [chunkOffsetsGo, h] at hk

end ChunkerLemmas

section ClaimC1

/-- The counterexample text for C1: 850 non-whitespace characters. -/
def cexC1 : List Char := List.replicate 850 'a'

/-- C1 counterexample: `cexC1` has fewer than `chunkSize = 900` characters, yet
`chunkText cexC1 900 150` returns two chunks (the default driver parameters):
the window at offset 750 still holds 100 > 60 characters. -/
theorem C1_counterexample :
    cexC1.length < 900 ∧ ¬ (chunkText cexC1 900 150).length ≤ 1 := by
  constructor
  · decide
  · decide

/-- C1 (amended): for every text `T` with `len(T) ≤ chunkSize - overlap`
(and `overlap < chunkSize`), `chunkText` returns at most one chunk, namely the
whitespace-normalized and trimmed text, emitted exactly when its length
exceeds 60; otherwise the result is empty. -/
theorem C1_amended (T : List Char) (chunkSize overlap : Nat)
    (hov : overlap < chunkSize) (hlen : T.length ≤ chunkSize - overlap) :
    chunkText T chunkSize overlap =
      if 60 < (cleanOf T).length then [cleanOf T] else [] := by
  have hclean : (cleanOf T).length ≤ chunkSize - overlap :=
    Nat.le_trans (cleanOf_length_le T) hlen
  have hcleansize : (cleanOf T).length ≤ chunkSize :=
    Nat.le_trans hclean (Nat.sub_le _ _)
  unfold chunkText
  cases hc : cleanOf T with
  | nil => simp [chunkStepGo, hc]
  | cons c cs =>
    rw [hc] at hclean hcleansize
    have hlen1 : (c :: cs).length = cs.length + 1 := rfl
    simp only [hlen1, chunkStepGo, Nat.succ_pos, if_pos, Nat.zero_add]
    have htake : (c :: cs).take chunkSize = c :: cs :=
      List.take_of_length_le hcleansize
    have htrim : trimChars (c :: cs) = c :: cs := by
      rw [← hc, trimChars_cleanOf]
    have hrest : chunkStepGo (c :: cs) chunkSize (chunkSize - overlap) cs.length
        (chunkSize - overlap) = [] :=
      chunkStepGo_stop _ _ _ _ _ hclean
    rw [List.drop_zero, htake, htrim, hrest]
    split
    · rename_i h60
      rw [if_pos (by simpa using h60)]
      simp
    · rename_i h60
      rw [if_neg (by simpa using h60)]
      simp

/-- Witness for C1 (amended) at a concrete 70-character text with the driver's
default parameters. -/
theorem C1_amended_witness :
    (150 : Nat) < 900 ∧ (List.replicate 70 'a').length ≤ 900 - 150 ∧
      chunkText (List.replicate 70 'a') 900 150 = [List.replicate 70 'a'] := by
  refine ⟨by decide, by decide, ?_⟩
  rw [C1_amended (List.replicate 70 'a') 900 150 (by decide) (by decide)]
  decide

end ClaimC1

section ClaimC7

/-- The counterexample text for C7: a space sits right at the second window's
start, so trimming destroys the overlap equality between emitted chunks. -/
def cexC7 : List Char := List.replicate 64 'a' ++ ' ' :: List.replicate 70 'b'

/-- C7 counterexample: with `chunkSize = 70`, `overlap = 6`, the two emitted
chunks both exceed 60 characters, yet the 6-character suffix of the first does
not equal the 6-character prefix of the second (per-chunk trimming shifts the
boundary). -/
theorem C7_counterexample :
    (chunkText cexC7 70 6).length = 2 ∧
    60 < ((chunkText cexC7 70 6).getD 0 []).length ∧
    60 < ((chunkText cexC7 70 6).getD 1 []).length ∧
    ¬ (((chunkText cexC7 70 6).getD 0 []).drop
          (((chunkText cexC7 70 6).getD 0 []).length - 6)
        = ((chunkText cexC7 70 6).getD 1 []).take 6) := by
  decide

/-- C7 (amended): the window starting offsets of `chunkText` form the
arithmetic sequence `0, step, 2*step, ...` (`step = chunkSize - overlap`),
strictly increasing while below the normalized length; `chunkText` emits the
trimmed windows at those offsets that exceed 60 characters; and consecutive
windows of the normalized text (before per-chunk trimming) share exactly
`overlap` characters: the `overlap`-suffix of a full window equals the
`overlap`-prefix of the next window. -/
theorem C7_amended (T : List Char) (chunkSize overlap : Nat)
    (hov : overlap < chunkSize) :
    (∀ k, k < (chunkOffsets (cleanOf T).length (chunkSize - overlap)).length →
      (chunkOffsets (cleanOf T).length (chunkSize - overlap)).getD k 0
        = k * (chunkSize - overlap))
    ∧ (∀ k, k + 1 < (chunkOffsets (cleanOf T).length (chunkSize - overlap)).length →
      (chunkOffsets (cleanOf T).length (chunkSize - overlap)).getD k 0
        < (chunkOffsets (cleanOf T).length (chunkSize - overlap)).getD (k+1) 0)
    ∧ chunkText T chunkSize overlap =
      ((chunkOffsets (cleanOf T).length (chunkSize - overlap)).map
        (fun j => trimChars (windowAt (cleanOf T) chunkSize j))).filter
        (fun part => decide (60 < part.length))
    ∧ (∀ j, j + chunkSize ≤ (cleanOf T).length →
      (windowAt (cleanOf T) chunkSize j).drop (chunkSize - overlap)
        = (windowAt (cleanOf T) chunkSize (j + (chunkSize - overlap))).take overlap) := by
  have hstep : 0 < chunkSize - overlap := Nat.sub_pos_of_lt hov
  have hgetD : ∀ k, k < (chunkOffsets (cleanOf T).length (chunkSize - overlap)).length →
      (chunkOffsets (cleanOf T).length (chunkSize - overlap)).getD k 0
        = k * (chunkSize - overlap) := by
    intro k hk
    have := chunkOffsetsGo_getD (cleanOf T).length (chunkSize - overlap)
      (cleanOf T).length 0 k hk
    simpa [chunkOffsets] using this
  refine ⟨hgetD, ?_, chunkText_eq_offsets T chunkSize overlap, ?_⟩
  · intro k hk
    rw [hgetD k (Nat.lt_of_succ_lt hk), hgetD (k+1) hk]
    have : k * (chunkSize - overlap) < (k + 1) * (chunkSize - overlap) :=
      Nat.mul_lt_mul_of_lt_of_le (Nat.lt_succ_self k) (Nat.le_refl _) hstep
    exact this
  · intro j _
    unfold windowAt
    have h1 : chunkSize - (chunkSize - overlap) = overlap :=
      Nat.sub_sub_self (Nat.le_of_lt hov)
    have h2 : overlap ⊓ chunkSize = overlap := Nat.min_eq_left (Nat.le_of_lt hov)
    simp only [List.drop_take, List.take_take, List.drop_drop, h1, h2, Nat.add_comm]

/-- Witness for C7 (amended) at a concrete text and the default parameters. -/
theorem C7_amended_witness :
    (150 : Nat) < 900 ∧
    ((chunkOffsets (cleanOf (List.replicate 1000 'a')).length (900 - 150)).getD 1 0
      = 1 * (900 - 150)) := by
  refine ⟨by decide, ?_⟩
  exact (C7_amended (List.replicate 1000 'a') 900 150 (by decide)).1 1 (by decide)

end ClaimC7

section ClaimC10

/-- C10: the chunker loop terminates on every input exactly when
`overlap < chunkSize`: the offsets `k * (chunkSize - overlap)` (JS number
semantics, possibly negative step) eventually reach any text length iff the
step is positive, each iteration adds exactly `chunkSize - overlap`, and for
`chunkSize ≤ overlap` the loop guard `i < len` holds forever on any non-empty
normalized text. -/
theorem C10_termination (chunkSize overlap : Nat) :
    ((∀ len : Nat, ∃ k : Nat, ¬ jsChunkOffset chunkSize overlap k < (len : Int))
        ↔ overlap < chunkSize)
    ∧ (∀ k, jsChunkOffset chunkSize overlap (k+1)
        = jsChunkOffset chunkSize overlap k + ((chunkSize : Int) - (overlap : Int)))
    ∧ (chunkSize ≤ overlap → ∀ len : Nat, 0 < len → ∀ k,
        jsChunkOffset chunkSize overlap k < (len : Int)) := by
  have hnonpos : chunkSize ≤ overlap → ∀ k : Nat,
      jsChunkOffset chunkSize overlap k ≤ 0 := by
    intro hle k
    unfold jsChunkOffset
    have hstep : (chunkSize : Int) - (overlap : Int) ≤ 0 := by
      have : (chunkSize : Int) ≤ (overlap : Int) := by exact_mod_cast hle
      omega
    exact mul_nonpos_of_nonneg_of_nonpos (by positivity) hstep
  refine ⟨⟨?_, ?_⟩, ?_, ?_⟩
  · intro h
    by_contra hnot
    have hle : chunkSize ≤ overlap := Nat.le_of_not_lt hnot
    obtain ⟨k, hk⟩ := h 1
    exact hk (lt_of_le_of_lt (hnonpos hle k) (by norm_num))
  · intro hov len
    refine ⟨len, ?_⟩
    have hstep : (1 : Int) ≤ (chunkSize : Int) - (overlap : Int) := by
      have : (overlap : Int) < (chunkSize : Int) := by exact_mod_cast hov
      omega
    have : (len : Int) ≤ (len : Int) * ((chunkSize : Int) - (overlap : Int)) :=
      le_mul_of_one_le_right (by positivity) hstep
    unfold jsChunkOffset
    omega
  · intro k
    unfold jsChunkOffset
    push_cast
    ring
  · intro hle len hlen k
    have : (0 : Int) < (len : Int) := by exact_mod_cast hlen
    exact lt_of_le_of_lt (hnonpos hle k) this

end ClaimC10

/-- Error information inspected by `withRetry`: the HTTP-like status
(`e?.status ?? e?.response?.status`) and the parsed `Retry-After` header
(`none` models an absent header or one whose `Number(...)` is `NaN`). -/
structure ErrInfo where
  status : Option Int
  retryAfterSec : Option Int
deriving DecidableEq, Repr, Inhabited

/-- `status === 429 || status === 403` (403 treated as a secondary rate limit). -/
def isRateLimit (e : ErrInfo) : Bool :=
  e.status == some 429 || e.status == some 403

/-- The wait computed for a rate-limited failure at attempt `i`:
`Math.min(60_000, 1000 * 2 ** i) + Math.floor(Math.random() * 500)`, raised to
the server's `Retry-After` (in seconds) when that value is a positive number. -/
def computeWait (i : Nat) (jit : Nat) (e : ErrInfo) : Int :=
  let base : Int := min 60000 (1000 * 2 ^ i) + (jit : Int)
  match e.retryAfterSec with
  | some sec => if 0 < sec then max base (sec * 1000) else base
  | none => base

/-- The retry loop of `withRetry`, from attempt index `i` with `rem` attempts
remaining; `jit i` models the jitter drawn at attempt `i`. Returns the final
outcome (`Except.error last` models `throw lastErr`, with `none` standing for
the undefined `lastErr` when no attempt ever ran), the list of sleeps
performed, and the number of calls made to the operation. -/
def withRetryFrom {α : Type} (op : Nat → Except ErrInfo α) (jit : Nat → Nat) :
    Nat → Nat → Option ErrInfo → Except (Option ErrInfo) α × List Int × Nat
  | 0, _, last => (.error last, [], 0)
  | rem + 1, i, _ =>
    match op i with
    | .ok v => (.ok v, [], 1)
    | .error e =>
      if isRateLimit e then
        let w := computeWait i (jit i) e
        let r := withRetryFrom op jit rem (i + 1) (some e)
        (r.1, w :: r.2.1, r.2.2 + 1)
      else (.error (some e), [], 1)

/-- Model of `withRetry(fn, tries = 8)`. -/
def withRetry {α : Type} (op : Nat → Except ErrInfo α) (jit : Nat → Nat)
    (tries : Nat := 8) : Except (Option ErrInfo) α × List Int × Nat :=
  withRetryFrom op jit tries 0 none

section RetryLemmas

theorem withRetryFrom_sleep_spec {α : Type} (op : Nat → Except ErrInfo α)
    (jit : Nat → Nat) :
    ∀ rem i last k, k < (withRetryFrom op jit rem i last).2.1.length →
      ∃ e, op (i + k) = .error e ∧ isRateLimit e = true ∧
        (withRetryFrom op jit rem i last).2.1.getD k 0
          = computeWait (i + k) (jit (i + k)) e := by
  intro rem
  induction rem with
  | zero => intro i last k hk; simp [withRetryFrom] at hk
  | succ r ih =>
    intro i last k hk
    cases hop : op i with
    | ok v =>
      rw [show withRetryFrom op jit (r + 1) i last = (.ok v, [], 1) by
        simp [withRetryFrom, hop]] at hk
      simp at hk
    | error e =>
      by_cases hrl : isRateLimit e
      · have hshape : withRetryFrom op jit (r + 1) i last
            = ((withRetryFrom op jit r (i + 1) (some e)).1,
               computeWait i (jit i) e
                 :: (withRetryFrom op jit r (i + 1) (some e)).2.1,
               (withRetryFrom op jit r (i + 1) (some e)).2.2 + 1) := by
          simp [withRetryFrom, hop, hrl]
        rw [hshape] at hk ⊢
        cases k with
        | zero => exact ⟨e, by simpa using hop, hrl, by simp⟩
        | succ m =>
          simp only [List.length_cons] at hk
          obtain ⟨e', h1, h2, h3⟩ := ih (i + 1) (some e) m (by simpa using hk)
          refine ⟨e', ?_, h2, ?_⟩
          · rw [← h1]; congr 1; omega
          · simp only [List.getD_cons_succ]
            have hidx : i + 1 + m = i + (m + 1) := by omega
            rw [hidx] at h3
            exact h3
      · rw [show withRetryFrom op jit (r + 1) i last = (.error (some e), [], 1) by
          simp [withRetryFrom, hop, hrl]] at hk
        simp at hk

theorem withRetryFrom_nonRL {α : Type} (op : Nat → Except ErrInfo α)
    (jit : Nat → Nat) :
    ∀ k rem i last e, k < rem →
      (∀ m, m < k → ∃ e', op (i + m) = .error e' ∧ isRateLimit e' = true) →
      op (i + k) = .error e → isRateLimit e = false →
      (withRetryFrom op jit rem i last).1 = .error (some e) ∧
      (withRetryFrom op jit rem i last).2.1.length = k ∧
      (withRetryFrom op jit rem i last).2.2 = k + 1 := by
  intro k
  induction k with
  | zero =>
    intro rem i last e hrem _ hop hrl
    obtain ⟨r, rfl⟩ := Nat.exists_eq_add_of_lt hrem
    simp only [Nat.add_zero] at hop
    simp [withRetryFrom, Nat.add_comm, hop, hrl]
  | succ m ih =>
    intro rem i last e hrem hprior hop hrl
    obtain ⟨r, rfl⟩ := Nat.exists_eq_add_of_lt hrem
    obtain ⟨e0, hop0, hrl0⟩ := hprior 0 (Nat.succ_pos m)
    rw [Nat.add_zero] at hop0
    have hrec := ih (m + 1 + r) (i + 1) (some e0) e (by omega)
      (fun n hn => by
        obtain ⟨e', h1, h2⟩ := hprior (n + 1) (by omega)
        exact ⟨e', by rw [← h1]; congr 1; omega, h2⟩)
      (by rw [← hop]; congr 1; omega) hrl
    have hshape : withRetryFrom op jit (m + 1 + r + 1) i last
        = ((withRetryFrom op jit (m + 1 + r) (i + 1) (some e0)).1,
           computeWait i (jit i) e0
             :: (withRetryFrom op jit (m + 1 + r) (i + 1) (some e0)).2.1,
           (withRetryFrom op jit (m + 1 + r) (i + 1) (some e0)).2.2 + 1) := by
      simp [withRetryFrom, hop0, hrl0]
    rw [hshape]
    exact ⟨hrec.1, by simp [hrec.2.1], by simp [hrec.2.2]⟩

theorem withRetryFrom_ok {α : Type} (op : Nat → Except ErrInfo α)
    (jit : Nat → Nat) :
    ∀ k rem i last v, k < rem →
      (∀ m, m < k → ∃ e', op (i + m) = .error e' ∧ isRateLimit e' = true) →
      op (i + k) = .ok v →
      (withRetryFrom op jit rem i last).1 = .ok v ∧
      (withRetryFrom op jit rem i last).2.1.length = k ∧
      (withRetryFrom op jit rem i last).2.2 = k + 1 := by
  intro k
  induction k with
  | zero =>
    intro rem i last v hrem _ hop
    obtain ⟨r, rfl⟩ := Nat.exists_eq_add_of_lt hrem
    simp only [Nat.add_zero] at hop
    simp [withRetryFrom, Nat.add_comm, hop]
  | succ m ih =>
    intro rem i last v hrem hprior hop
    obtain ⟨r, rfl⟩ := Nat.exists_eq_add_of_lt hrem
    obtain ⟨e0, hop0, hrl0⟩ := hprior 0 (Nat.succ_pos m)
    rw [Nat.add_zero] at hop0
    have hrec := ih (m + 1 + r) (i + 1) (some e0) v (by omega)
      (fun n hn => by
        obtain ⟨e', h1, h2⟩ := hprior (n + 1) (by omega)
        exact ⟨e', by rw [← h1]; congr 1; omega, h2⟩)
      (by rw [← hop]; congr 1; omega)
    have hshape : withRetryFrom op jit (m + 1 + r + 1) i last
        = ((withRetryFrom op jit (m + 1 + r) (i + 1) (some e0)).1,
           computeWait i (jit i) e0
             :: (withRetryFrom op jit (m + 1 + r) (i + 1) (some e0)).2.1,
           (withRetryFrom op jit (m + 1 + r) (i + 1) (some e0)).2.2 + 1) := by
      simp [withRetryFrom, hop0, hrl0]
    rw [hshape]
    exact ⟨hrec.1, by simp [hrec.2.1], by simp [hrec.2.2]⟩

theorem withRetryFrom_exhaust {α : Type} (op : Nat → Except ErrInfo α)
    (jit : Nat → Nat) :
    ∀ rem i last e, 0 < rem →
      (∀ m, m < rem → ∃ e', op (i + m) = .error e' ∧ isRateLimit e' = true) →
      op (i + (rem - 1)) = .error e →
      (withRetryFrom op jit rem i last).1 = .error (some e) ∧
      (withRetryFrom op jit rem i last).2.1.length = rem ∧
      (withRetryFrom op jit rem i last).2.2 = rem := by
  intro rem
  induction rem with
  | zero => intro i last e h; omega
  | succ r ih =>
    intro i last e _ hall hlast
    obtain ⟨e0, hop0, hrl0⟩ := hall 0 (Nat.succ_pos r)
    rw [Nat.add_zero] at hop0
    have hshape : withRetryFrom op jit (r + 1) i last
        = ((withRetryFrom op jit r (i + 1) (some e0)).1,
           computeWait i (jit i) e0
             :: (withRetryFrom op jit r (i + 1) (some e0)).2.1,
           (withRetryFrom op jit r (i + 1) (some e0)).2.2 + 1) := by
      simp [withRetryFrom, hop0, hrl0]
    cases r with
    | zero =>
      rw [hshape]
      have hz : withRetryFrom op jit 0 (i + 1) (some e0) = (.error (some e0), [], 0) := rfl
      rw [hz]
      have h := hlast
      have hidx : (0 : Nat) + 1 - 1 = 0 := rfl
      rw [hidx, Nat.add_zero, hop0] at h
      have he : e = e0 := by
        injection h with h'
        exact h'.symm
      subst he
      exact ⟨rfl, rfl, rfl⟩
    | succ r' =>
      have hrec := ih (i + 1) (some e0) e (Nat.succ_pos r')
        (fun n hn => by
          obtain ⟨e', h1, h2⟩ := hall (n + 1) (by omega)
          exact ⟨e', by rw [← h1]; congr 1; omega, h2⟩)
        (by rw [← hlast]; congr 1; omega)
      rw [hshape]
      exact ⟨hrec.1, by simp [hrec.2.1], by simp [hrec.2.2]⟩

end RetryLemmas

section ClaimC3

/-- C3: every wait performed by `withRetry` corresponds to a rate-limited
failure (status 429 or 403) at the attempt of the same index, and equals
`min(60000, 1000 * 2^i)` plus a jitter `j < 500`; when the failure carries a
positive Retry-After of `s` seconds, the wait is the maximum of that computed
delay and `s * 1000`. -/
theorem C3_backoff {α : Type} (op : Nat → Except ErrInfo α) (jit : Nat → Nat)
    (tries : Nat) (hjit : ∀ n, jit n < 500) :
    ∀ k, k < (withRetry op jit tries).2.1.length →
      ∃ e, op k = .error e ∧ isRateLimit e = true ∧ ∃ j : Nat, j < 500 ∧
        (withRetry op jit tries).2.1.getD k 0 =
          (match e.retryAfterSec with
           | some s =>
             if 0 < s then max (min 60000 (1000 * 2 ^ k) + (j : Int)) (s * 1000)
             else min 60000 (1000 * 2 ^ k) + (j : Int)
           | none => min 60000 (1000 * 2 ^ k) + (j : Int)) := by
  intro k hk
  simp only [withRetry] at hk ⊢
  obtain ⟨e, h1, h2, h3⟩ := withRetryFrom_sleep_spec op jit tries 0 none k hk
  rw [Nat.zero_add] at h1 h3
  refine ⟨e, h1, h2, jit k, hjit k, ?_⟩
  rw [h3]
  unfold computeWait
  cases e.retryAfterSec <;> simp

/-- A concrete operation that always fails with 429 and `Retry-After: 7`. -/
def opC3ex : Nat → Except ErrInfo Nat := fun _ => .error ⟨some 429, some 7⟩

/-- A concrete jitter draw. -/
def jitC3ex : Nat → Nat := fun _ => 123

/-- Witness for C3 at the first attempt of a concrete run. -/
theorem C3_backoff_witness :
    ∃ e, opC3ex 0 = .error e ∧ isRateLimit e = true ∧ ∃ j : Nat, j < 500 ∧
      (withRetry opC3ex jitC3ex 3).2.1.getD 0 0 =
        (match e.retryAfterSec with
         | some s =>
           if 0 < s then max (min 60000 (1000 * 2 ^ 0) + (j : Int)) (s * 1000)
           else min 60000 (1000 * 2 ^ 0) + (j : Int)
         | none => min 60000 (1000 * 2 ^ 0) + (j : Int)) :=
  C3_backoff opC3ex jitC3ex 3 (fun _ => by unfold jitC3ex; decide) 0 (by decide)

end ClaimC3

section ClaimC4

/-- C4: control flow of `withRetry`. After any prefix of rate-limited
failures: (a) a non-rate-limit failure at attempt `k` is propagated with no
further attempts and no sleep for it (exactly `k` sleeps, `k + 1` calls);
(b) a success at attempt `k` returns its value; (c) if all `tries` attempts
fail rate-limited, the last failure is propagated after exactly `tries` calls;
and (d) the default number of attempts is 8. -/
theorem C4_control {α : Type} (op : Nat → Except ErrInfo α) (jit : Nat → Nat) :
    (∀ tries k e, k < tries →
      (∀ m, m < k → ∃ e', op m = .error e' ∧ isRateLimit e' = true) →
      op k = .error e → isRateLimit e = false →
      (withRetry op jit tries).1 = .error (some e) ∧
      (withRetry op jit tries).2.1.length = k ∧
      (withRetry op jit tries).2.2 = k + 1)
    ∧ (∀ tries k v, k < tries →
      (∀ m, m < k → ∃ e', op m = .error e' ∧ isRateLimit e' = true) →
      op k = .ok v →
      (withRetry op jit tries).1 = .ok v ∧
      (withRetry op jit tries).2.1.length = k ∧
      (withRetry op jit tries).2.2 = k + 1)
    ∧ (∀ tries e, 0 < tries →
      (∀ m, m < tries → ∃ e', op m = .error e' ∧ isRateLimit e' = true) →
      op (tries - 1) = .error e →
      (withRetry op jit tries).1 = .error (some e) ∧
      (withRetry op jit tries).2.1.length = tries ∧
      (withRetry op jit tries).2.2 = tries)
    ∧ withRetry op jit = withRetry op jit 8 := by
  refine ⟨?_, ?_, ?_, rfl⟩
  · intro tries k e hk hprior hop hrl
    exact withRetryFrom_nonRL op jit k tries 0 none e hk
      (fun m hm => by simpa using hprior m hm) (by simpa using hop) hrl
  · intro tries k v hk hprior hop
    exact withRetryFrom_ok op jit k tries 0 none v hk
      (fun m hm => by simpa using hprior m hm) (by simpa using hop)
  · intro tries e htries hall hlast
    exact withRetryFrom_exhaust op jit tries 0 none e htries
      (fun m hm => by simpa using hall m hm) (by simpa using hlast)

/-- A concrete operation failing with a plain 500. -/
def opC4ex : Nat → Except ErrInfo Nat := fun _ => .error ⟨some 500, none⟩

/-- Witness for C4: a 500 failure on the first attempt propagates with no
sleeps and exactly one call. -/
theorem C4_control_witness :
    (withRetry opC4ex jitC3ex 8).1 = .error (some ⟨some 500, none⟩) ∧
    (withRetry opC4ex jitC3ex 8).2.1.length = 0 ∧
    (withRetry opC4ex jitC3ex 8).2.2 = 0 + 1 :=
  (C4_control opC4ex jitC3ex).1 8 0 ⟨some 500, none⟩ (by decide)
    (fun m hm => absurd hm (Nat.not_lt_zero m)) rfl (by decide)

end ClaimC4

/-- Model of `extractTextSmart(pdfBuffer, pdfPath)`: `parsedText` is the native
parser's `parsed.text` field (`none` models a missing/undefined field, read as
`parsed.text || ""`), `ocrText` is what the OCR sub-pipeline would return for
this document. Result: the text used and the `usedOcr` flag. -/
def extractTextSmart (parsedText : Option (List Char)) (ocrText : List Char) :
    List Char × Bool :=
  let t := trimChars (parsedText.getD [])
  if t.length < 300 then (ocrText, true) else (t, false)

section ClaimC6

/-- A native extraction result with a leading space and 300 content characters. -/
def cexC6 : List Char := ' ' :: List.replicate 300 'a'

/-- C6 counterexample: on `cexC6` the native branch is taken
(`usedOcr = false`), but the returned text is the trimmed text, not the
original text unmodified. -/
theorem C6_counterexample :
    (extractTextSmart (some cexC6) []).2 = false ∧
    ¬ (extractTextSmart (some cexC6) []).1 = cexC6 := by
  decide

/-- C6 (amended): `extractTextSmart` trims the native text; it returns the OCR
output with `usedOcr = true` exactly when the trimmed native text has fewer
than 300 characters, and otherwise returns the trimmed (not original) native
text with `usedOcr = false` — the returned native text is trim-stable. -/
theorem C6_amended (parsedText : Option (List Char)) (ocrText : List Char) :
    ((extractTextSmart parsedText ocrText).2 = true
      ↔ (trimChars (parsedText.getD [])).length < 300)
    ∧ ((trimChars (parsedText.getD [])).length < 300 →
        extractTextSmart parsedText ocrText = (ocrText, true))
    ∧ (300 ≤ (trimChars (parsedText.getD [])).length →
        extractTextSmart parsedText ocrText
          = (trimChars (parsedText.getD []), false)
        ∧ trimChars (extractTextSmart parsedText ocrText).1
            = (extractTextSmart parsedText ocrText).1) := by
  refine ⟨?_, ?_, ?_⟩
  · simp only [extractTextSmart]
    split
    · rename_i h; simpa using h
    · rename_i h; simpa using h
  · intro h
    simp only [extractTextSmart]
    rw [if_pos h]
  · intro h
    have hnot : ¬ (trimChars (parsedText.getD [])).length < 300 := Nat.not_lt.mpr h
    simp only [extractTextSmart]
    rw [if_neg hnot]
    exact ⟨rfl, trimChars_idem _⟩

end ClaimC6

/-- Digit test of the regex class `\d`. -/
def isDigitChar (c : Char) : Bool := '0' ≤ c && c ≤ '9'

/-- The tail of the marker regex after the literal `[PAGE`: one or more
whitespace characters, then one or more digits (captured), then `]`. -/
def matchMarkerTail (rest : List Char) : Option (List Char × List Char) :=
  if rest.takeWhile isWsChar = [] then none
  else if (rest.dropWhile isWsChar).takeWhile isDigitChar = [] then none
  else
    match (rest.dropWhile isWsChar).dropWhile isDigitChar with
    | [] => none
    | c :: rest2 =>
      if c = ']'
      then some ((rest.dropWhile isWsChar).takeWhile isDigitChar, rest2)
      else none

/-- The five literal characters opening the marker regex `\[PAGE`. -/
def markerHead : List Char := ['[', 'P', 'A', 'G', 'E']

/-- Attempt to match `\[PAGE\s+(\d+)\]` at the head of `s`; on success return
the captured digit run and the remainder after the closing `]`. -/
def matchMarker (s : List Char) : Option (List Char × List Char) :=
  if s.take 5 = markerHead then matchMarkerTail (s.drop 5) else none

/-- Whether the marker regex matches anywhere in `s`. -/
def hasMarker : List Char → Bool
  | [] => false
  | c :: rest => (matchMarker (c :: rest)).isSome || hasMarker rest

/-- The scan of `text.split(/\[PAGE\s+(\d+)\]/g)`: returns the part before the
first match and, for each match, its captured digits paired with the part
following it up to the next match. Fueled; `s.length` is enough fuel since
every step consumes at least one character. -/
def splitMarkersGo : Nat → List Char → List Char × List (List Char × List Char)
  | 0, _ => ([], [])
  | fuel + 1, s =>
    match s with
    | [] => ([], [])
    | c :: rest =>
      match matchMarker (c :: rest) with
      | some (digs, after) =>
        ([], (digs, (splitMarkersGo fuel after).1) :: (splitMarkersGo fuel after).2)
      | none => (c :: (splitMarkersGo fuel rest).1, (splitMarkersGo fuel rest).2)

/-- `text.split(/\[PAGE\s+(\d+)\]/g)` in structured form. -/
def splitMarkers (s : List Char) : List Char × List (List Char × List Char) :=
  splitMarkersGo s.length s

/-- The numeric value of one digit character. -/
def digitVal (c : Char) : Nat := c.toNat - 48

/-- Model of JS `Number(...)` on a digit string. -/
def digitsToNat (ds : List Char) : Nat :=
  ds.foldl (fun acc c => acc * 10 + digitVal c) 0

/-- A `{ page, content }` record emitted by `splitByPages`. -/
structure PageRecord where
  page : Nat
  content : List Char
deriving DecidableEq, Repr, Inhabited

/-- Model of `splitByPages(text)`: if no marker matches, a single record
`{page: 1, content: text}`; otherwise each captured page number paired with
the trimmed following part, dropping empty parts; if everything is dropped,
fall back to the single record. -/
def splitByPages (text : List Char) : List PageRecord :=
  let pr := splitMarkers text
  if pr.2 = [] then [⟨1, text⟩]
  else
    let out := pr.2.filterMap (fun dp =>
      if trimChars dp.2 = [] then none
      else some ⟨digitsToNat dp.1, trimChars dp.2⟩)
    if out = [] then [⟨1, text⟩] else out

/-- Decimal digit characters of `n`, most significant first (fueled long
division; fuel `n + 1` always suffices). Models the JS template rendering
`${pageNum}` of a nonnegative integer. -/
def natToDigitsGo : Nat → Nat → List Char → List Char
  | 0, _, acc => acc
  | fuel + 1, n, acc =>
    if n < 10 then Nat.digitChar n :: acc
    else natToDigitsGo fuel (n / 10) (Nat.digitChar (n % 10) :: acc)

/-- Decimal rendering of `n`. -/
def natToDigits (n : Nat) : List Char := natToDigitsGo (n + 1) n []

/-- The literal marker text `[PAGE ` ++ digits ++ `]` that the OCR loop
interpolates. -/
def pageMarker (i : Nat) : List Char :=
  '[' :: 'P' :: 'A' :: 'G' :: 'E' :: ' ' :: (natToDigits i ++ [']'])

/-- One appended OCR block: `"\n\n[PAGE " + pageNum + "]\n" + pageText`. -/
def pageBlock (i : Nat) (p : List Char) : List Char :=
  '\n' :: '\n' :: (pageMarker i ++ '\n' :: p)

/-- The OCR accumulation loop over recognized pages, numbering from `i`. -/
def ocrJoinGo : Nat → List (List Char) → List Char
  | _, [] => []
  | i, p :: ps => pageBlock i p ++ ocrJoinGo (i + 1) ps

/-- The OCR stitching step of `ocrPdfToText`: concatenate the numbered page
blocks (pages numbered from 1) and trim the result (`fullText.trim()`). -/
def ocrJoin (pages : List (List Char)) : List Char := trimChars (ocrJoinGo 1 pages)

/-- The records C5 expects `splitByPages` to recover from the joined text. -/
def expectedRecords : Nat → List (List Char) → List PageRecord
  | _, [] => []
  | i, p :: ps => ⟨i, trimChars p⟩ :: expectedRecords (i + 1) ps

section MarkerLemmas

theorem takeWhile_append_stop {p : Char → Bool} {l : List Char}
    (hall : ∀ c ∈ l, p c = true) {x : Char} (hx : p x = false) (r : List Char) :
    ((l ++ x :: r).takeWhile p = l) ∧ ((l ++ x :: r).dropWhile p = x :: r) := by
  induction l with
  | nil => simp [List.takeWhile_cons, List.dropWhile_cons, hx]
  | cons a l ih =>
    have ha : p a = true := hall a (List.mem_cons_self a l)
    have ih' := ih (fun c hc => hall c (List.mem_cons_of_mem a hc))
    simp [List.takeWhile_cons, List.dropWhile_cons, ha, ih'.1, ih'.2]

theorem takeWhile_append_all {p : Char → Bool} {l : List Char}
    (hall : ∀ c ∈ l, p c = true) (m : List Char) :
    ((l ++ m).takeWhile p = l ++ m.takeWhile p)
      ∧ ((l ++ m).dropWhile p = m.dropWhile p) := by
  induction l with
  | nil => simp
  | cons a l ih =>
    have ha : p a = true := hall a (List.mem_cons_self a l)
    have ih' := ih (fun c hc => hall c (List.mem_cons_of_mem a hc))
    simp [List.takeWhile_cons, List.dropWhile_cons, ha, ih'.1, ih'.2]

theorem matchMarkerTail_some {rest d r : List Char}
    (h : matchMarkerTail rest = some (d, r)) :
    rest.takeWhile isWsChar ≠ [] ∧
    d = (rest.dropWhile isWsChar).takeWhile isDigitChar ∧ d ≠ [] ∧
    (rest.dropWhile isWsChar).dropWhile isDigitChar = ']' :: r := by
  unfold matchMarkerTail at h
  split at h
  · exact absurd h (by simp)
  · rename_i hW
    split at h
    · exact absurd h (by simp)
    · rename_i hD
      split at h
      · exact absurd h (by simp)
      · rename_i c rest2 heq
        split at h
        · rename_i hc
          subst hc
          rw [Option.some.injEq, Prod.mk.injEq] at h
          obtain ⟨hd, hr⟩ := h
          subst hd
          subst hr
          exact ⟨hW, rfl, hD, heq⟩
        · exact absurd h (by simp)

theorem matchMarkerTail_of_shape {W D r : List Char}
    (hW : W ≠ []) (hWall : ∀ c ∈ W, isWsChar c = true)
    (hD : D ≠ []) (hDall : ∀ c ∈ D, isDigitChar c = true)
    (hDnw : ∀ c ∈ D, isWsChar c = false) :
    matchMarkerTail (W ++ (D ++ ']' :: r)) = some (D, r) := by
  cases D with
  | nil => exact absurd rfl hD
  | cons x D' =>
    have hx : isWsChar x = false := hDnw x (List.mem_cons_self x D')
    have h1 := takeWhile_append_stop hWall hx (D' ++ ']' :: r)
    have h2 := @takeWhile_append_stop isDigitChar
      (x :: D') hDall ']' (by decide) r
    unfold matchMarkerTail
    rw [show W ++ (x :: D' ++ ']' :: r) = W ++ x :: (D' ++ ']' :: r) by simp]
    rw [h1.1, h1.2]
    rw [show x :: (D' ++ ']' :: r) = (x :: D') ++ ']' :: r by simp]
    rw [h2.1, h2.2]
    rw [if_neg hW, if_neg hD]
    rfl

theorem matchMarker_some_length {s d r : List Char}
    (h : matchMarker s = some (d, r)) : r.length < s.length := by
  unfold matchMarker at h
  split at h
  · rename_i htake
    obtain ⟨hW, hd, hD, heq⟩ := matchMarkerTail_some h
    have h5 : 5 ≤ s.length := by
      have hlen := congrArg List.length htake
      rw [List.length_take] at hlen
      unfold markerHead at hlen
      simp at hlen
      omega
    have e1 : ((s.drop 5).dropWhile isWsChar).length ≤ (s.drop 5).length :=
      length_dropWhile_le _ _
    have e2 : (((s.drop 5).dropWhile isWsChar).dropWhile isDigitChar).length
        ≤ ((s.drop 5).dropWhile isWsChar).length := length_dropWhile_le _ _
    have e3 : (((s.drop 5).dropWhile isWsChar).dropWhile isDigitChar).length
        = r.length + 1 := by rw [heq]; simp
    have e4 : (s.drop 5).length = s.length - 5 := List.length_drop 5 s
    omega
  · exact absurd h (by simp)

theorem splitMarkersGo_irrel : ∀ fuel s fuel', s.length ≤ fuel → s.length ≤ fuel' →
    splitMarkersGo fuel s = splitMarkersGo fuel' s := by
  intro fuel
  induction fuel with
  | zero =>
    intro s fuel' h1 _
    have hs : s = [] := List.length_eq_zero.mp (Nat.le_zero.mp h1)
    subst hs
    cases fuel' <;> simp [splitMarkersGo]
  | succ f ih =>
    intro s fuel' h1 h2
    cases s with
    | nil => cases fuel' <;> simp [splitMarkersGo]
    | cons c rest =>
      cases fuel' with
      | zero => simp at h2
      | succ f' =>
        simp only [splitMarkersGo]
        cases hm : matchMarker (c :: rest) with
        | some pr =>
          obtain ⟨digs, after⟩ := pr
          have hlen := matchMarker_some_length hm
          simp only [List.length_cons] at h1 h2 hlen
          have hA1 : after.length ≤ f := by omega
          have hA2 : after.length ≤ f' := by omega
          simp only [hm]
          rw [ih after f' hA1 hA2]
        | none =>
          simp only [List.length_cons] at h1 h2
          have hr1 : rest.length ≤ f := by omega
          have hr2 : rest.length ≤ f' := by omega
          simp only [hm]
          rw [ih rest f' hr1 hr2]

theorem splitMarkers_cons_some {c : Char} {rest digs after : List Char}
    (hm : matchMarker (c :: rest) = some (digs, after)) :
    splitMarkers (c :: rest)
      = ([], (digs, (splitMarkers after).1) :: (splitMarkers after).2) := by
  have hlen := matchMarker_some_length hm
  simp only [List.length_cons] at hlen
  unfold splitMarkers
  simp only [List.length_cons, splitMarkersGo, hm]
  rw [splitMarkersGo_irrel rest.length after after.length (by omega) (le_refl _)]

theorem splitMarkers_cons_none {c : Char} {rest : List Char}
    (hm : matchMarker (c :: rest) = none) :
    splitMarkers (c :: rest) = (c :: (splitMarkers rest).1, (splitMarkers rest).2) := by
  unfold splitMarkers
  simp only [List.length_cons, splitMarkersGo, hm]

theorem matchMarker_not_lbracket {c : Char} (hc : ¬ c = '[') (w : List Char) :
    matchMarker (c :: w) = none := by
  unfold matchMarker
  rw [if_neg]
  intro hEq
  rw [List.take_succ_cons] at hEq
  unfold markerHead at hEq
  injection hEq with h1 _
  exact hc h1

end MarkerLemmas

section MarkerScanLemmas

theorem isWsChar_eq (c : Char) :
    isWsChar c = (c = ' ' || c = '\t' || c = '\r' || c = '\n') := rfl

theorem isDigitChar_not_ws {c : Char} (h : isDigitChar c = true) : isWsChar c = false := by
  by_cases h1 : c = ' '
  · subst h1; exact absurd h (by decide)
  by_cases h2 : c = '\t'
  · subst h2; exact absurd h (by decide)
  by_cases h3 : c = '\r'
  · subst h3; exact absurd h (by decide)
  by_cases h4 : c = '\n'
  · subst h4; exact absurd h (by decide)
  rw [isWsChar_eq]
  simp [h1, h2, h3, h4]

theorem matchMarkerTail_extend {rest d r : List Char} (u : List Char)
    (h : matchMarkerTail rest = some (d, r)) :
    matchMarkerTail (rest ++ u) = some (d, r ++ u) := by
  obtain ⟨hW, hd, hD, heq⟩ := matchMarkerTail_some h
  have hA : rest.dropWhile isWsChar = d ++ ']' :: r := by
    have := List.takeWhile_append_dropWhile isDigitChar (rest.dropWhile isWsChar)
    rw [heq, ← hd] at this
    exact this.symm
  have hrest : rest = rest.takeWhile isWsChar ++ (d ++ ']' :: r) := by
    rw [← hA]
    exact (List.takeWhile_append_dropWhile _ _).symm
  have hWall : ∀ c ∈ rest.takeWhile isWsChar, isWsChar c = true :=
    fun c hc => List.mem_takeWhile_imp hc
  have hDall : ∀ c ∈ d, isDigitChar c = true := by
    rw [hd]; exact fun c hc => List.mem_takeWhile_imp hc
  have hDnw : ∀ c ∈ d, isWsChar c = false :=
    fun c hc => isDigitChar_not_ws (hDall c hc)
  rw [show rest ++ u = rest.takeWhile isWsChar ++ (d ++ ']' :: (r ++ u)) by
    conv_lhs => rw [hrest]
    simp]
  exact matchMarkerTail_of_shape hW hWall hD hDall hDnw

theorem matchMarker_take5_length {s : List Char} (h : s.take 5 = markerHead) :
    5 ≤ s.length := by
  have hlen := congrArg List.length h
  rw [List.length_take] at hlen
  unfold markerHead at hlen
  simp at hlen
  omega

theorem matchMarker_extend {s d r : List Char} (u : List Char)
    (h : matchMarker s = some (d, r)) :
    matchMarker (s ++ u) = some (d, r ++ u) := by
  unfold matchMarker at h ⊢
  split at h
  · rename_i htake
    have h5 := matchMarker_take5_length htake
    rw [if_pos (by rw [List.take_append_of_le_length h5]; exact htake)]
    rw [List.drop_append_of_le_length h5]
    exact matchMarkerTail_extend u h
  · exact absurd h (by simp)

theorem hasMarker_false_iff : ∀ s : List Char, hasMarker s = false ↔
    ∀ a c b, s = a ++ c :: b → matchMarker (c :: b) = none := by
  intro s
  induction s with
  | nil =>
    constructor
    · intro _ a c b heq
      exact absurd heq (by simp)
    · intro _
      rfl
  | cons x rest ih =>
    simp only [hasMarker, Bool.or_eq_false_iff]
    constructor
    · intro ⟨h1, h2⟩ a c b heq
      cases a with
      | nil =>
        simp only [List.nil_append] at heq
        injection heq with hx hrest
        subst hx
        subst hrest
        cases hm : matchMarker (x :: rest) with
        | none => rfl
        | some pr => rw [hm] at h1; simp at h1
      | cons y a' =>
        injection heq with hx hrest
        exact (ih.mp h2) a' c b hrest
    · intro h
      constructor
      · rw [h [] x rest rfl]; rfl
      · exact ih.mpr (fun a c b hb => h (x :: a) c b (by rw [hb]; rfl))

theorem hasMarker_append_left_false {x y : List Char}
    (h : hasMarker (x ++ y) = false) : hasMarker x = false := by
  rw [hasMarker_false_iff] at h ⊢
  intro a c b heq
  cases hm : matchMarker (c :: b) with
  | none => rfl
  | some pr =>
    obtain ⟨d, r⟩ := pr
    have hext := matchMarker_extend y hm
    have hdec : x ++ y = a ++ c :: (b ++ y) := by rw [heq]; simp
    have hnone := h a c (b ++ y) hdec
    rw [show c :: (b ++ y) = (c :: b) ++ y by simp, hext] at hnone
    exact absurd hnone (by simp)

theorem hasMarker_trimRight_false {p : List Char} (h : hasMarker p = false) :
    hasMarker (trimRight p) = false := by
  obtain ⟨t, ht⟩ := trimRight_append_ex p
  exact @hasMarker_append_left_false (trimRight p) t (by rw [ht]; exact h)

theorem splitMarkers_no_marker {s : List Char} (h : hasMarker s = false) :
    splitMarkers s = (s, []) := by
  induction s with
  | nil => rfl
  | cons c rest ih =>
    have h1 : matchMarker (c :: rest) = none :=
      (hasMarker_false_iff (c :: rest)).mp h [] c rest rfl
    have h2 : hasMarker rest = false := by
      unfold hasMarker at h
      exact (Bool.or_eq_false_iff.mp h).2
    rw [splitMarkers_cons_none h1, ih h2]

end MarkerScanLemmas

section BoundaryLemmas

theorem matchMarkerTail_boundary {q z d r : List Char}
    (h : matchMarkerTail (q ++ '\n' :: '\n' :: '[' :: z) = some (d, r)) :
    ∃ r0, matchMarkerTail q = some (d, r0) ∧ r = r0 ++ '\n' :: '\n' :: '[' :: z := by
  cases hA : q.dropWhile isWsChar with
  | nil =>
    exfalso
    have hqall : ∀ c ∈ q, isWsChar c = true := List.dropWhile_eq_nil_iff.mp hA
    have h1 := @takeWhile_append_all isWsChar q hqall ('\n' :: '\n' :: '[' :: z)
    have hdw : (q ++ '\n' :: '\n' :: '[' :: z).dropWhile isWsChar = '[' :: z := by
      rw [h1.2, List.dropWhile_cons, if_pos (by decide), List.dropWhile_cons,
        if_pos (by decide), List.dropWhile_cons, if_neg (by decide)]
    unfold matchMarkerTail at h
    rw [hdw] at h
    split at h
    · simp at h
    · rw [show ('[' :: z).takeWhile isDigitChar = [] by
        rw [List.takeWhile_cons, if_neg (by decide)]] at h
      simp at h
  | cons x A' =>
    have hx : isWsChar x = false := head_dropWhile_false isWsChar q x A' hA
    have hq : q = q.takeWhile isWsChar ++ x :: A' := by
      rw [← hA]
      exact (List.takeWhile_append_dropWhile _ _).symm
    have hWall : ∀ c ∈ q.takeWhile isWsChar, isWsChar c = true :=
      fun c hc => List.mem_takeWhile_imp hc
    have hqs : q ++ '\n' :: '\n' :: '[' :: z
        = q.takeWhile isWsChar ++ x :: (A' ++ '\n' :: '\n' :: '[' :: z) := by
      conv_lhs => rw [hq]
      simp
    have h1 := takeWhile_append_stop hWall hx (A' ++ '\n' :: '\n' :: '[' :: z)
    unfold matchMarkerTail at h
    rw [hqs, h1.1, h1.2] at h
    by_cases hW : q.takeWhile isWsChar = []
    · rw [if_pos hW] at h
      simp at h
    · rw [if_neg hW] at h
      cases hB : (x :: A').dropWhile isDigitChar with
      | nil =>
        exfalso
        have hdall : ∀ c ∈ x :: A', isDigitChar c = true :=
          List.dropWhile_eq_nil_iff.mp hB
        have h2 := @takeWhile_append_all isDigitChar (x :: A') hdall
          ('\n' :: '\n' :: '[' :: z)
        rw [show x :: (A' ++ '\n' :: '\n' :: '[' :: z)
            = (x :: A') ++ '\n' :: '\n' :: '[' :: z by simp] at h
        rw [h2.1, h2.2] at h
        rw [show ('\n' :: '\n' :: '[' :: z).takeWhile isDigitChar = [] by
          rw [List.takeWhile_cons, if_neg (by decide)]] at h
        rw [show ('\n' :: '\n' :: '[' :: z).dropWhile isDigitChar
            = '\n' :: '\n' :: '[' :: z by
          rw [List.dropWhile_cons, if_neg (by decide)]] at h
        rw [if_neg (by simp)] at h
        split at h
        · simp at h
        · rename_i c2 rest2 heq2
          injection heq2 with hc2 hr2
          rw [if_neg (by rw [← hc2]; decide)] at h
          simp at h
      | cons y B' =>
        have hy : isDigitChar y = false := head_dropWhile_false _ _ y B' hB
        have hxall : x :: A' = (x :: A').takeWhile isDigitChar ++ y :: B' := by
          rw [← hB]
          exact (List.takeWhile_append_dropWhile _ _).symm
        have hDall : ∀ c ∈ (x :: A').takeWhile isDigitChar, isDigitChar c = true :=
          fun c hc => List.mem_takeWhile_imp hc
        have hxs : x :: (A' ++ '\n' :: '\n' :: '[' :: z)
            = (x :: A').takeWhile isDigitChar ++ y :: (B' ++ '\n' :: '\n' :: '[' :: z) := by
          rw [show x :: (A' ++ '\n' :: '\n' :: '[' :: z)
              = (x :: A') ++ '\n' :: '\n' :: '[' :: z by simp]
          conv_lhs => rw [hxall]
          simp
        have h3 := takeWhile_append_stop hDall hy (B' ++ '\n' :: '\n' :: '[' :: z)
        rw [hxs, h3.1, h3.2] at h
        by_cases hD : (x :: A').takeWhile isDigitChar = []
        · rw [if_pos hD] at h
          simp at h
        · rw [if_neg hD] at h
          split at h
          · simp at h
          · rename_i c2 rest2 heq2
            injection heq2 with hc2 hr2
            by_cases hy2 : c2 = ']'
            · rw [if_pos hy2] at h
              rw [Option.some.injEq, Prod.mk.injEq] at h
              obtain ⟨hd', hr'⟩ := h
              subst hd'
              refine ⟨B', ?_, ?_⟩
              · have hyv : y = ']' := by rw [hc2, hy2]
                have hqeq : q = q.takeWhile isWsChar
                    ++ ((x :: A').takeWhile isDigitChar ++ ']' :: B') := by
                  rw [← hyv, ← hxall, ← hq]
                have hshape := @matchMarkerTail_of_shape (q.takeWhile isWsChar)
                  ((x :: A').takeWhile isDigitChar) B'
                  hW hWall hD hDall (fun c hc => isDigitChar_not_ws (hDall c hc))
                rw [← hqeq] at hshape
                exact hshape
              · rw [← hr', ← hr2]
            · rw [if_neg hy2] at h
              simp at h

theorem matchMarker_boundary {q z d r : List Char}
    (h : matchMarker (q ++ '\n' :: '\n' :: '[' :: z) = some (d, r)) :
    ∃ r0, matchMarker q = some (d, r0) ∧ r = r0 ++ '\n' :: '\n' :: '[' :: z := by
  unfold matchMarker at h
  split at h
  · rename_i htake
    by_cases h5 : 5 ≤ q.length
    · rw [List.take_append_of_le_length h5] at htake
      rw [List.drop_append_of_le_length h5] at h
      obtain ⟨r0, h1, h2⟩ := matchMarkerTail_boundary h
      refine ⟨r0, ?_, h2⟩
      unfold matchMarker
      rw [if_pos htake]
      exact h1
    · exfalso
      have hlt : q.length < 5 := Nat.lt_of_not_le h5
      have hidx : ((q ++ '\n' :: '\n' :: '[' :: z).take 5).get? q.length
          = (q ++ '\n' :: '\n' :: '[' :: z).get? q.length := List.get?_take hlt
      have hidx2 : (q ++ '\n' :: '\n' :: '[' :: z).get? q.length = some '\n' := by
        rw [List.get?_append_right (le_refl _)]
        simp
      have hbad : markerHead.get? q.length = some '\n' := by
        rw [← htake, hidx, hidx2]
      have hcases : q.length = 0 ∨ q.length = 1 ∨ q.length = 2 ∨ q.length = 3
          ∨ q.length = 4 := by omega
      rcases hcases with h0|h0|h0|h0|h0 <;> rw [h0] at hbad <;>
        exact absurd hbad (by decide)
  · exact absurd h (by simp)

theorem splitMarkers_seg {p : List Char} (hp : hasMarker p = false) (z : List Char) :
    splitMarkers (p ++ '\n' :: '\n' :: '[' :: z)
      = (p ++ '\n' :: '\n' :: (splitMarkers ('[' :: z)).1,
         (splitMarkers ('[' :: z)).2) := by
  induction p with
  | nil =>
    rw [List.nil_append]
    rw [splitMarkers_cons_none (matchMarker_not_lbracket (by decide) _)]
    rw [splitMarkers_cons_none (matchMarker_not_lbracket (by decide) _)]
    simp
  | cons c p' ih =>
    have h1 : matchMarker (c :: p') = none :=
      (hasMarker_false_iff _).mp hp [] c p' rfl
    have h2 : hasMarker p' = false := by
      have hx := hp
      unfold hasMarker at hx
      exact (Bool.or_eq_false_iff.mp hx).2
    have hnone : matchMarker (c :: (p' ++ '\n' :: '\n' :: '[' :: z)) = none := by
      cases hm : matchMarker (c :: (p' ++ '\n' :: '\n' :: '[' :: z)) with
      | none => rfl
      | some pr =>
        obtain ⟨d0, r⟩ := pr
        have hm' : matchMarker ((c :: p') ++ '\n' :: '\n' :: '[' :: z)
            = some (d0, r) := by simpa using hm
        obtain ⟨r0, hq, _⟩ := matchMarker_boundary hm'
        rw [h1] at hq
        exact absurd hq (by simp)
    rw [show (c :: p') ++ '\n' :: '\n' :: '[' :: z
        = c :: (p' ++ '\n' :: '\n' :: '[' :: z) from rfl]
    rw [splitMarkers_cons_none hnone, ih h2]
    simp

end BoundaryLemmas

section DigitLemmas

theorem natToDigitsGo_spec : ∀ fuel n acc, n ≤ fuel →
    natToDigitsGo (fuel + 1) n acc
      = (Nat.digits 10 n).reverse.map Nat.digitChar
          ++ (if n = 0 then '0' :: acc else acc) := by
  intro fuel
  induction fuel with
  | zero =>
    intro n acc hn
    have hz : n = 0 := Nat.le_zero.mp hn
    subst hz
    have hdc : Nat.digitChar 0 = '0' := rfl
    simp [natToDigitsGo, hdc]
  | succ f ih =>
    intro n acc hn
    by_cases h0 : n = 0
    · subst h0
      have hdc : Nat.digitChar 0 = '0' := rfl
      simp [natToDigitsGo, hdc]
    · by_cases h10 : n < 10
      · rw [show natToDigitsGo (f + 1 + 1) n acc
            = Nat.digitChar n :: acc by simp [natToDigitsGo, h10]]
        rw [Nat.digits_def' (by norm_num : (1:Nat) < 10) (Nat.pos_of_ne_zero h0)]
        rw [Nat.mod_eq_of_lt h10, Nat.div_eq_of_lt h10]
        simp [h0]
      · have hge : 10 ≤ n := Nat.le_of_not_lt h10
        rw [show natToDigitsGo (f + 1 + 1) n acc
            = natToDigitsGo (f + 1) (n / 10) (Nat.digitChar (n % 10) :: acc) by
          simp [natToDigitsGo, h10]]
        have hdiv : n / 10 ≤ f := by
          have h1 : n / 10 < n := Nat.div_lt_self (by omega) (by norm_num)
          omega
        rw [ih (n / 10) (Nat.digitChar (n % 10) :: acc) hdiv]
        rw [if_neg (by
          intro hz
          have : n < 10 := by
            have := Nat.div_eq_zero_iff (by norm_num : 0 < 10) |>.mp hz
            omega
          omega)]
        rw [Nat.digits_def' (by norm_num : (1:Nat) < 10) (Nat.pos_of_ne_zero h0)]
        rw [if_neg h0]
        simp

theorem natToDigits_eq (n : Nat) (hn : 1 ≤ n) :
    natToDigits n = (Nat.digits 10 n).reverse.map Nat.digitChar := by
  unfold natToDigits
  rw [natToDigitsGo_spec n n [] (le_refl n), if_neg (by omega)]
  simp

theorem digitChar_isDigit {d : Nat} (hd : d < 10) :
    isDigitChar (Nat.digitChar d) = true := by
  interval_cases d <;> decide

theorem digitVal_digitChar {d : Nat} (hd : d < 10) :
    digitVal (Nat.digitChar d) = d := by
  interval_cases d <;> decide

theorem natToDigits_all_digit (n : Nat) (hn : 1 ≤ n) :
    ∀ c ∈ natToDigits n, isDigitChar c = true := by
  rw [natToDigits_eq n hn]
  intro c hc
  rw [List.mem_map] at hc
  obtain ⟨dd, hd1, hd2⟩ := hc
  rw [List.mem_reverse] at hd1
  have := Nat.digits_lt_base (by norm_num) hd1
  rw [← hd2]
  exact digitChar_isDigit this

theorem natToDigits_ne_nil (n : Nat) (hn : 1 ≤ n) : natToDigits n ≠ [] := by
  rw [natToDigits_eq n hn]
  simp only [ne_eq, List.map_eq_nil_iff, List.reverse_eq_nil_iff]
  exact Nat.digits_ne_nil_iff_ne_zero.mpr (by omega)

theorem foldl_digitsVal (L : List Nat) (hall : ∀ d ∈ L, d < 10) :
    (L.reverse.map Nat.digitChar).foldl (fun acc c => acc * 10 + digitVal c) 0
      = Nat.ofDigits 10 L := by
  induction L with
  | nil => simp [Nat.ofDigits_nil]
  | cons d L' ih =>
    have hd : d < 10 := hall d (List.mem_cons_self d L')
    have ih' := ih (fun e he => hall e (List.mem_cons_of_mem d he))
    rw [List.reverse_cons, List.map_append, List.foldl_append, ih']
    rw [Nat.ofDigits_cons]
    simp [digitVal_digitChar hd]
    ring

theorem digitsToNat_natToDigits (n : Nat) (hn : 1 ≤ n) :
    digitsToNat (natToDigits n) = n := by
  rw [natToDigits_eq n hn]
  unfold digitsToNat
  rw [foldl_digitsVal _ (fun e he => Nat.digits_lt_base (by norm_num) he)]
  exact Nat.ofDigits_digits 10 n

end DigitLemmas

section TrimStructure

theorem dropWhile_cons_head_false {p : Char → Bool} {c : Char} (hc : p c = false)
    (l : List Char) : (c :: l).dropWhile p = c :: l := by
  rw [List.dropWhile_cons, if_neg (by simp [hc])]

theorem trimLeft_ws_front {y : List Char} (hy : ∀ c ∈ y, isWsChar c = true)
    (x : List Char) : trimLeft (y ++ x) = trimLeft x :=
  (takeWhile_append_all hy x).2

theorem trimRight_ws_suffix {y : List Char} (hy : ∀ c ∈ y, isWsChar c = true)
    (x : List Char) : trimRight (x ++ y) = trimRight x := by
  unfold trimRight
  rw [List.reverse_append]
  rw [(takeWhile_append_all (fun c hc => hy c (List.mem_reverse.mp hc)) x.reverse).2]

theorem trimChars_ws_front {y : List Char} (hy : ∀ c ∈ y, isWsChar c = true)
    (x : List Char) : trimChars (y ++ x) = trimChars x := by
  unfold trimChars
  rw [trimLeft_ws_front hy x]

theorem trimChars_ws_suffix {y : List Char} (hy : ∀ c ∈ y, isWsChar c = true)
    (x : List Char) : trimChars (x ++ y) = trimChars x := by
  unfold trimChars trimLeft
  rw [List.dropWhile_append]
  by_cases hx : (x.dropWhile isWsChar).isEmpty = true
  · rw [if_pos hx]
    rw [List.dropWhile_eq_nil_iff.mpr hy]
    have : x.dropWhile isWsChar = [] := by
      cases hcc : x.dropWhile isWsChar with
      | nil => rfl
      | cons a b => rw [hcc] at hx; simp at hx
    rw [this]
  · rw [if_neg hx]
    exact trimRight_ws_suffix hy _

theorem trimChars_trimRight (p : List Char) : trimChars (trimRight p) = trimChars p := by
  have hdec : p = trimRight p ++ (p.reverse.takeWhile isWsChar).reverse := by
    have h := congrArg List.reverse (List.takeWhile_append_dropWhile isWsChar p.reverse)
    rw [List.reverse_append, List.reverse_reverse] at h
    exact h.symm
  conv_rhs => rw [hdec]
  rw [trimChars_ws_suffix
    (fun c hc => List.mem_takeWhile_imp (List.mem_reverse.mp hc))]

theorem trimChars_cons_nl (x : List Char) : trimChars ('\n' :: x) = trimChars x :=
  @trimChars_ws_front ['\n'] (by intro c hc; simp at hc; subst hc; decide) x

theorem trimChars_seg_eq (p : List Char) :
    trimChars ('\n' :: p ++ ['\n', '\n']) = trimChars p := by
  rw [show '\n' :: p ++ ['\n', '\n'] = ['\n'] ++ (p ++ ['\n', '\n']) by simp]
  rw [trimChars_ws_front (by intro c hc; simp at hc; subst hc; decide)]
  rw [trimChars_ws_suffix (by intro c hc; simp at hc; subst hc; decide)]

theorem trimRight_ne_nil_of_trimChars {p : List Char} (h : trimChars p ≠ []) :
    trimRight p ≠ [] := by
  intro hz
  apply h
  have hdw : p.reverse.dropWhile isWsChar = [] := by
    unfold trimRight at hz
    simpa using hz
  have hall : ∀ c ∈ p, isWsChar c = true :=
    fun c hc => List.dropWhile_eq_nil_iff.mp hdw c (List.mem_reverse.mpr hc)
  unfold trimChars trimLeft
  rw [List.dropWhile_eq_nil_iff.mpr hall]
  rfl

theorem trimRight_append {x y : List Char} (hy : trimRight y ≠ []) :
    trimRight (x ++ y) = x ++ trimRight y := by
  unfold trimRight at hy ⊢
  rw [List.reverse_append, List.dropWhile_append]
  have hne : ¬ (y.reverse.dropWhile isWsChar).isEmpty = true := by
    intro hx
    apply hy
    cases hcc : y.reverse.dropWhile isWsChar with
    | nil => simp [hcc]
    | cons a b => rw [hcc] at hx; simp at hx
  rw [if_neg hne, List.reverse_append, List.reverse_reverse]

theorem trimRight_cons_nl {p : List Char} (hp : trimRight p ≠ []) :
    trimRight ('\n' :: p) = '\n' :: trimRight p := by
  rw [show ('\n' :: p) = ['\n'] ++ p by simp]
  rw [trimRight_append hp]
  rfl

end TrimStructure

/-- The joined OCR text after the final `.trim()`, block by block: the leading
`\n\n` of the first block is gone and the trailing whitespace of the last
page is gone. -/
def joinedTrimmed : Nat → List (List Char) → List Char
  | _, [] => []
  | i, [p] => pageMarker i ++ '\n' :: trimRight p
  | i, p :: ps => pageMarker i ++ '\n' :: p ++ '\n' :: '\n' :: joinedTrimmed (i + 1) ps

/-- The (digits, following-part) pairs that `splitMarkers` recovers from the
trimmed joined text. -/
def expectedPairs : Nat → List (List Char) → List (List Char × List Char)
  | _, [] => []
  | i, [p] => [(natToDigits i, '\n' :: trimRight p)]
  | i, p :: ps => (natToDigits i, '\n' :: p ++ ['\n', '\n']) :: expectedPairs (i + 1) ps

section JoinLemmas

theorem trimLeft_marker_append (i : Nat) (X : List Char) :
    trimLeft (pageMarker i ++ X) = pageMarker i ++ X := by
  unfold pageMarker trimLeft
  rw [List.cons_append, dropWhile_cons_head_false (by decide)]

theorem trimLeft_ocrJoinGo (i : Nat) (p : List Char) (ps : List (List Char)) :
    trimLeft (ocrJoinGo i (p :: ps))
      = pageMarker i ++ ('\n' :: p ++ ocrJoinGo (i + 1) ps) := by
  show trimLeft (pageBlock i p ++ ocrJoinGo (i + 1) ps) = _
  unfold pageBlock
  rw [List.cons_append, List.cons_append]
  unfold trimLeft
  rw [List.dropWhile_cons, if_pos (by decide), List.dropWhile_cons, if_pos (by decide)]
  rw [List.append_assoc]
  exact trimLeft_marker_append i _

theorem pageMarker_ne_nil (i : Nat) : pageMarker i ≠ [] := by
  unfold pageMarker
  simp

theorem joinedTrimmed_cons_ne_nil (i : Nat) (p : List Char) (ps : List (List Char)) :
    joinedTrimmed i (p :: ps) ≠ [] := by
  cases ps <;> simp [joinedTrimmed, pageMarker]

theorem trimRight_joined : ∀ ps i p, trimChars p ≠ [] →
    (∀ q ∈ ps, trimChars q ≠ []) →
    trimRight (pageMarker i ++ ('\n' :: p ++ ocrJoinGo (i + 1) ps))
      = joinedTrimmed i (p :: ps) := by
  intro ps
  induction ps with
  | nil =>
    intro i p hp _
    have htr : trimRight p ≠ [] := trimRight_ne_nil_of_trimChars hp
    rw [show ocrJoinGo (i + 1) [] = [] from rfl, List.append_nil]
    rw [show ('\n' :: p) = ['\n'] ++ p by simp, ← List.append_assoc]
    rw [trimRight_append htr]
    show _ = pageMarker i ++ '\n' :: trimRight p
    simp
  | cons q ps' ih =>
    intro i p hp hq
    have hqn : trimChars q ≠ [] := hq q (List.mem_cons_self q ps')
    have hps' : ∀ r ∈ ps', trimChars r ≠ [] :=
      fun r hr => hq r (List.mem_cons_of_mem q hr)
    have hih := ih (i + 1) q hqn hps'
    have hYne : trimRight (pageMarker (i + 1)
        ++ ('\n' :: q ++ ocrJoinGo (i + 2) ps')) ≠ [] := by
      rw [hih]
      exact joinedTrimmed_cons_ne_nil (i + 1) q ps'
    have hassoc : pageMarker i ++ ('\n' :: p ++ ocrJoinGo (i + 1) (q :: ps'))
        = (pageMarker i ++ '\n' :: p ++ ['\n', '\n'])
          ++ (pageMarker (i + 1) ++ ('\n' :: q ++ ocrJoinGo (i + 2) ps')) := by
      show pageMarker i ++ ('\n' :: p
          ++ (pageBlock (i + 1) q ++ ocrJoinGo (i + 2) ps')) = _
      unfold pageBlock
      simp
    rw [hassoc, trimRight_append hYne, hih]
    show _ = pageMarker i ++ '\n' :: p ++ '\n' :: '\n' :: joinedTrimmed (i + 1) (q :: ps')
    simp

end JoinLemmas

section JoinScan

theorem matchMarker_marker_append (i : Nat) (hi : 1 ≤ i) (X : List Char) :
    matchMarker (pageMarker i ++ X) = some (natToDigits i, X) := by
  unfold pageMarker matchMarker
  rw [show ('[' :: 'P' :: 'A' :: 'G' :: 'E' :: ' ' :: (natToDigits i ++ [']'])) ++ X
      = '[' :: 'P' :: 'A' :: 'G' :: 'E' :: ' ' :: ((natToDigits i ++ [']']) ++ X)
    by simp]
  rw [if_pos (by rfl)]
  rw [show ('[' :: 'P' :: 'A' :: 'G' :: 'E' :: ' '
      :: ((natToDigits i ++ [']']) ++ X)).drop 5 = ' ' :: ((natToDigits i ++ [']']) ++ X)
    from rfl]
  rw [show ' ' :: ((natToDigits i ++ [']']) ++ X)
      = [' '] ++ (natToDigits i ++ ']' :: X) by simp]
  exact matchMarkerTail_of_shape (by simp)
    (by intro c hc; simp at hc; subst hc; decide)
    (natToDigits_ne_nil i hi) (natToDigits_all_digit i hi)
    (fun c hc => isDigitChar_not_ws (natToDigits_all_digit i hi c hc))

theorem joinedTrimmed_cons_lbracket (i : Nat) (p : List Char) (ps : List (List Char)) :
    ∃ w, joinedTrimmed i (p :: ps) = '[' :: w := by
  cases ps with
  | nil => exact ⟨_, by show pageMarker i ++ '\n' :: trimRight p = _; unfold pageMarker; rfl⟩
  | cons q ps' =>
    exact ⟨_, by
      show pageMarker i ++ '\n' :: p ++ '\n' :: '\n' :: joinedTrimmed (i + 1) (q :: ps') = _
      unfold pageMarker
      rfl⟩

theorem splitMarkers_joined : ∀ ps i p, 1 ≤ i →
    hasMarker p = false → trimChars p ≠ [] →
    (∀ q ∈ ps, hasMarker q = false ∧ trimChars q ≠ []) →
    splitMarkers (joinedTrimmed i (p :: ps)) = ([], expectedPairs i (p :: ps)) := by
  intro ps
  induction ps with
  | nil =>
    intro i p hi hpm hpt _
    show splitMarkers (pageMarker i ++ '\n' :: trimRight p) = _
    obtain ⟨R, hR⟩ : ∃ R, pageMarker i ++ '\n' :: trimRight p = '[' :: R :=
      ⟨_, by unfold pageMarker; rfl⟩
    have hm : matchMarker ('[' :: R) = some (natToDigits i, '\n' :: trimRight p) := by
      rw [← hR]
      exact matchMarker_marker_append i hi _
    rw [hR, splitMarkers_cons_some hm]
    have hnm : hasMarker ('\n' :: trimRight p) = false := by
      unfold hasMarker
      rw [Bool.or_eq_false_iff]
      constructor
      · rw [matchMarker_not_lbracket (by decide)]
        rfl
      · exact hasMarker_trimRight_false hpm
    rw [splitMarkers_no_marker hnm]
    show ([], [(natToDigits i, '\n' :: trimRight p)]) = _
    rfl
  | cons q ps' ih =>
    intro i p hi hpm hpt hq
    have hqm : hasMarker q = false := (hq q (List.mem_cons_self q ps')).1
    have hqt : trimChars q ≠ [] := (hq q (List.mem_cons_self q ps')).2
    have hps' : ∀ r ∈ ps', hasMarker r = false ∧ trimChars r ≠ [] :=
      fun r hr => hq r (List.mem_cons_of_mem q hr)
    have hih := ih (i + 1) q (by omega) hqm hqt hps'
    obtain ⟨w, hw⟩ := joinedTrimmed_cons_lbracket (i + 1) q ps'
    show splitMarkers (pageMarker i
        ++ '\n' :: p ++ '\n' :: '\n' :: joinedTrimmed (i + 1) (q :: ps')) = _
    obtain ⟨R, hR⟩ : ∃ R, pageMarker i
        ++ '\n' :: p ++ '\n' :: '\n' :: joinedTrimmed (i + 1) (q :: ps')
        = '[' :: R := ⟨_, by unfold pageMarker; rfl⟩
    have hm : matchMarker ('[' :: R)
        = some (natToDigits i,
            '\n' :: p ++ '\n' :: '\n' :: joinedTrimmed (i + 1) (q :: ps')) := by
      rw [← hR]
      rw [show pageMarker i ++ '\n' :: p ++ '\n' :: '\n' :: joinedTrimmed (i + 1) (q :: ps')
          = pageMarker i ++ ('\n' :: p ++ '\n' :: '\n' :: joinedTrimmed (i + 1) (q :: ps'))
        by simp]
      exact matchMarker_marker_append i hi _
    rw [hR, splitMarkers_cons_some hm]
    have hseg : splitMarkers ('\n' :: p ++ '\n' :: '\n' :: joinedTrimmed (i + 1) (q :: ps'))
        = ('\n' :: p ++ ['\n', '\n'], expectedPairs (i + 1) (q :: ps')) := by
      have hnone : matchMarker ('\n' :: (p ++ '\n' :: '\n' :: joinedTrimmed (i + 1) (q :: ps')))
          = none := matchMarker_not_lbracket (by decide) _
      rw [show '\n' :: p ++ '\n' :: '\n' :: joinedTrimmed (i + 1) (q :: ps')
          = '\n' :: (p ++ '\n' :: '\n' :: joinedTrimmed (i + 1) (q :: ps')) by simp]
      rw [splitMarkers_cons_none hnone]
      rw [show p ++ '\n' :: '\n' :: joinedTrimmed (i + 1) (q :: ps')
          = p ++ '\n' :: '\n' :: '[' :: w by rw [hw]]
      rw [splitMarkers_seg hpm w]
      rw [← hw, hih]
      simp
    rw [hseg]
    show ([], (natToDigits i, '\n' :: p ++ ['\n', '\n']) :: expectedPairs (i + 1) (q :: ps')) = _
    rfl

theorem filterMap_expectedPairs : ∀ ps i p, 1 ≤ i → trimChars p ≠ [] →
    (∀ q ∈ ps, trimChars q ≠ []) →
    (expectedPairs i (p :: ps)).filterMap (fun dp =>
        if trimChars dp.2 = [] then none
        else some ⟨digitsToNat dp.1, trimChars dp.2⟩)
      = expectedRecords i (p :: ps) := by
  intro ps
  induction ps with
  | nil =>
    intro i p hi hp _
    show List.filterMap _ [(natToDigits i, '\n' :: trimRight p)] = _
    have hc : trimChars ('\n' :: trimRight p) = trimChars p := by
      rw [trimChars_cons_nl, trimChars_trimRight]
    have happ : (fun dp : List Char × List Char =>
        if trimChars dp.2 = [] then none
        else some (PageRecord.mk (digitsToNat dp.1) (trimChars dp.2)))
          (natToDigits i, '\n' :: trimRight p)
        = some ⟨i, trimChars p⟩ := by
      show (if trimChars ('\n' :: trimRight p) = [] then none
          else some (PageRecord.mk (digitsToNat (natToDigits i))
            (trimChars ('\n' :: trimRight p)))) = some ⟨i, trimChars p⟩
      rw [hc, if_neg hp, digitsToNat_natToDigits i hi]
    exact (@List.filterMap_cons_some _ _
      (fun dp : List Char × List Char =>
        if trimChars dp.2 = [] then none
        else some (PageRecord.mk (digitsToNat dp.1) (trimChars dp.2)))
      (natToDigits i, '\n' :: trimRight p) [] ⟨i, trimChars p⟩ happ).trans
      (by rw [List.filterMap_nil]; try rfl)
  | cons q ps' ih =>
    intro i p hi hp hq
    show List.filterMap _ ((natToDigits i, '\n' :: p ++ ['\n', '\n'])
        :: expectedPairs (i + 1) (q :: ps')) = _
    have hc : trimChars ('\n' :: p ++ ['\n', '\n']) = trimChars p := trimChars_seg_eq p
    have happ : (fun dp : List Char × List Char =>
        if trimChars dp.2 = [] then none
        else some (PageRecord.mk (digitsToNat dp.1) (trimChars dp.2)))
          (natToDigits i, '\n' :: p ++ ['\n', '\n'])
        = some ⟨i, trimChars p⟩ := by
      show (if trimChars ('\n' :: p ++ ['\n', '\n']) = [] then none
          else some (PageRecord.mk (digitsToNat (natToDigits i))
            (trimChars ('\n' :: p ++ ['\n', '\n'])))) = some ⟨i, trimChars p⟩
      rw [hc, if_neg hp, digitsToNat_natToDigits i hi]
    exact (@List.filterMap_cons_some _ _
      (fun dp : List Char × List Char =>
        if trimChars dp.2 = [] then none
        else some (PageRecord.mk (digitsToNat dp.1) (trimChars dp.2)))
      (natToDigits i, '\n' :: p ++ ['\n', '\n']) (expectedPairs (i + 1) (q :: ps'))
      ⟨i, trimChars p⟩ happ).trans
      (by rw [ih (i + 1) q (by omega) (hq q (List.mem_cons_self q ps'))
            (fun r hr => hq r (List.mem_cons_of_mem q hr))]
          try rfl)

end JoinScan

section ClaimC5

/-- C5 counterexample: for the empty list of page texts (vacuously satisfying
the marker-freedom and non-emptiness conditions), joining gives the empty text
and splitting returns the fallback record `(1, "")`, not the empty list of
records that left-inverseness demands. -/
theorem C5_counterexample :
    splitByPages (ocrJoin []) = [⟨1, []⟩] ∧ expectedRecords 1 [] = [] := by
  decide

/-- C5 (amended): for every non-empty list of page texts, each non-empty after
trimming and containing no `[PAGE <digits>]` marker, joining them with the OCR
markers and applying `splitByPages` recovers `[(1, trim p1), ..., (n, trim pn)]`. -/
theorem C5_amended (pages : List (List Char)) (hne : pages ≠ [])
    (h : ∀ p ∈ pages, hasMarker p = false ∧ trimChars p ≠ []) :
    splitByPages (ocrJoin pages) = expectedRecords 1 pages := by
  obtain ⟨p, ps, rfl⟩ := List.exists_cons_of_ne_nil hne
  have hpm : hasMarker p = false := (h p (List.mem_cons_self p ps)).1
  have hpt : trimChars p ≠ [] := (h p (List.mem_cons_self p ps)).2
  have hps : ∀ q ∈ ps, hasMarker q = false ∧ trimChars q ≠ [] :=
    fun q hq => h q (List.mem_cons_of_mem p hq)
  have hJ : ocrJoin (p :: ps) = joinedTrimmed 1 (p :: ps) := by
    unfold ocrJoin trimChars
    rw [trimLeft_ocrJoinGo 1 p ps]
    exact trimRight_joined ps 1 p hpt (fun q hq => (hps q hq).2)
  have hSM := splitMarkers_joined ps 1 p (le_refl 1) hpm hpt hps
  have hpairs_ne : expectedPairs 1 (p :: ps) ≠ [] := by
    cases ps <;> simp [expectedPairs]
  have hrec_ne : expectedRecords 1 (p :: ps) ≠ [] := by
    show PageRecord.mk 1 (trimChars p) :: expectedRecords 2 ps ≠ []
    simp
  rw [hJ]
  simp only [splitByPages]
  rw [hSM]
  rw [if_neg (by simpa using hpairs_ne)]
  rw [show (([], expectedPairs 1 (p :: ps)) : List Char × List (List Char × List Char)).2
      = expectedPairs 1 (p :: ps) from rfl]
  rw [filterMap_expectedPairs ps 1 p (le_refl 1) hpt (fun q hq => (hps q hq).2)]
  rw [if_neg hrec_ne]

/-- Witness for C5 (amended) on two concrete one-page texts. -/
theorem C5_amended_witness :
    splitByPages (ocrJoin [['a'], ['b', 'c']]) = [⟨1, ['a']⟩, ⟨2, ['b', 'c']⟩] := by
  rw [C5_amended [['a'], ['b', 'c']] (by decide) (by decide)]
  decide

end ClaimC5

/-- The page numbers captured by the marker scan, in text order. -/
def capturedPages (text : List Char) : List Nat :=
  (splitMarkers text).2.map (fun dp => digitsToNat dp.1)

/-- Adjacent elements never decrease — the monotonicity invariant of the spec. -/
def nondecreasing (l : List Nat) : Prop :=
  ∀ k, k < l.length - 1 → l.getD k 0 ≤ l.getD (k + 1) 0

instance decNondecreasing (l : List Nat) : Decidable (nondecreasing l) := by
  unfold nondecreasing
  infer_instance

section ClaimC2

theorem nondecreasing_iff_pairwise (l : List Nat) :
    nondecreasing l ↔ l.Pairwise (· ≤ ·) := by
  rw [← List.chain'_iff_pairwise, List.chain'_iff_get]
  unfold nondecreasing
  constructor
  · intro h i hi
    have hx := h i hi
    rw [List.getD_eq_getElem l 0 (by omega), List.getD_eq_getElem l 0 (by omega)] at hx
    simpa [List.get_eq_getElem] using hx
  · intro h k hk
    have hx := h k hk
    rw [List.getD_eq_getElem l 0 (by omega), List.getD_eq_getElem l 0 (by omega)]
    simpa [List.get_eq_getElem] using hx

theorem filterMap_guard_map_sublist {α β γ : Type} (P : α → Prop) [DecidablePred P]
    (g : α → β) (h : β → γ) (l : List α) :
    ((l.filterMap (fun a => if P a then none else some (g a))).map h).Sublist
      (l.map (fun a => h (g a))) := by
  induction l with
  | nil => simp
  | cons a l ih =>
    by_cases hp : P a
    · rw [List.filterMap_cons_none (by simp [hp])]
      rw [List.map_cons]
      exact ih.cons _
    · rw [@List.filterMap_cons_some _ _
        (fun a => if P a then none else some (g a)) a l (g a) (by simp [hp])]
      rw [List.map_cons, List.map_cons]
      exact ih.cons₂ _

/-- The counterexample text `[PAGE 2]xa[PAGE 1]yb`, with markers out of order. -/
def cexC2 : List Char :=
  ['[', 'P', 'A', 'G', 'E', ' ', '2', ']', 'x', 'a',
   '[', 'P', 'A', 'G', 'E', ' ', '1', ']', 'y', 'b']

/-- C2 counterexample: on `cexC2` the emitted page numbers are `[2, 1]` — not
monotonically non-decreasing — so the claimed invariant fails as stated. -/
theorem C2_counterexample :
    ¬ (nondecreasing ((splitByPages cexC2).map PageRecord.page)
        ∧ ∀ r ∈ splitByPages cexC2, r.content ≠ []) := by
  decide

/-- C2 (amended): the emitted page numbers follow the captured marker numbers
in text order, so they are monotonically non-decreasing whenever the marker
numbers appear non-decreasingly in the input (as the OCR join emits them); and
either `splitByPages` returns the single fallback record `(1, text)` (whose
content may be empty, e.g. for empty input) or every emitted record has
non-empty, trim-stable content. -/
theorem C2_amended (text : List Char) :
    (nondecreasing (capturedPages text) →
      nondecreasing ((splitByPages text).map PageRecord.page))
    ∧ (splitByPages text = [⟨1, text⟩]
      ∨ ∀ r ∈ splitByPages text, r.content ≠ [] ∧ trimChars r.content = r.content) := by
  by_cases h1 : (splitMarkers text).2 = []
  · have hfb : splitByPages text = [⟨1, text⟩] := by
      simp only [splitByPages]
      rw [if_pos h1]
    refine ⟨?_, Or.inl hfb⟩
    intro _
    rw [hfb]
    intro k hk
    simp at hk
  · by_cases h2 : (splitMarkers text).2.filterMap (fun dp =>
        if trimChars dp.2 = [] then none
        else some (PageRecord.mk (digitsToNat dp.1) (trimChars dp.2))) = []
    · have hfb : splitByPages text = [⟨1, text⟩] := by
        simp only [splitByPages]
        rw [if_neg h1, if_pos h2]
      refine ⟨?_, Or.inl hfb⟩
      intro _
      rw [hfb]
      intro k hk
      simp at hk
    · have hout : splitByPages text = (splitMarkers text).2.filterMap (fun dp =>
          if trimChars dp.2 = [] then none
          else some (PageRecord.mk (digitsToNat dp.1) (trimChars dp.2))) := by
        simp only [splitByPages]
        rw [if_neg h1, if_neg h2]
      constructor
      · intro hmono
        rw [nondecreasing_iff_pairwise] at hmono ⊢
        rw [hout]
        have hsub := filterMap_guard_map_sublist
          (fun dp : List Char × List Char => trimChars dp.2 = [])
          (fun dp => PageRecord.mk (digitsToNat dp.1) (trimChars dp.2))
          PageRecord.page (splitMarkers text).2
        have hfn : (fun dp : List Char × List Char =>
            (PageRecord.mk (digitsToNat dp.1) (trimChars dp.2)).page)
            = fun dp : List Char × List Char => digitsToNat dp.1 := rfl
        rw [hfn] at hsub
        exact List.Pairwise.sublist hsub hmono
      · refine Or.inr ?_
        intro r hr
        rw [hout] at hr
        rw [List.mem_filterMap] at hr
        obtain ⟨dp, _, hdp⟩ := hr
        by_cases hc : trimChars dp.2 = []
        · rw [if_pos hc] at hdp
          exact absurd hdp (by simp)
        · rw [if_neg hc] at hdp
          rw [Option.some.injEq] at hdp
          subst hdp
          exact ⟨hc, trimChars_idem dp.2⟩

end ClaimC2

/-- One input document for the driver loop: file name (directory-listing
order is the list order), extracted text, and `extractTextSmart`'s flag. -/
structure FileInput where
  name : List Char
  text : List Char
  usedOcr : Bool
deriving DecidableEq, Repr

/-- One persisted row of `rag_chunks` (the embedding column is omitted — it is
computed per chunk and inserted in the same awaited step). -/
structure ChunkRow where
  source : List Char
  page : Nat
  chunk_index : Nat
  chunk : List Char
deriving DecidableEq, Repr

/-- `usedOcr ? splitByPages(text) : [{page: 1, content: text}]`. -/
def pagesOfFile (f : FileInput) : List PageRecord :=
  if f.usedOcr then splitByPages f.text else [⟨1, f.text⟩]

/-- The inner `for (idx = 0; ...)` loop of `main`: one awaited embed+insert
per chunk, appending the row to the database state `db`. -/
def insertChunksFrom (name : List Char) (page : Nat) :
    List (List Char) → Nat → List ChunkRow → List ChunkRow
  | [], _, db => db
  | ch :: rest, idx, db =>
    insertChunksFrom name page rest (idx + 1) (db ++ [⟨name, page, idx, ch⟩])

/-- The `for (const p of pages)` loop of `main`. -/
def insertPages (name : List Char) : List PageRecord → List ChunkRow → List ChunkRow
  | [], db => db
  | p :: ps, db =>
    insertPages name ps
      (insertChunksFrom name p.page (chunkText p.content 900 150) 0 db)

/-- The `for (const file of files)` loop of `main`. -/
def ingestFiles : List FileInput → List ChunkRow → List ChunkRow
  | [], db => db
  | f :: fs, db => ingestFiles fs (insertPages f.name (pagesOfFile f) db)

/-- A full ingestion run over an initially empty store. -/
def ingestRun (files : List FileInput) : List ChunkRow := ingestFiles files []

/-- The rows of one page starting at chunk index `idx`, in emission order. -/
def pageRowsFrom (name : List Char) (page : Nat) :
    List (List Char) → Nat → List ChunkRow
  | [], _ => []
  | ch :: rest, idx => ⟨name, page, idx, ch⟩ :: pageRowsFrom name page rest (idx + 1)

/-- The rows of one page, 0-based. -/
def pageRows (name : List Char) (page : Nat) (chunks : List (List Char)) :
    List ChunkRow :=
  pageRowsFrom name page chunks 0

section ClaimC8

theorem insertChunksFrom_eq (name : List Char) (page : Nat) :
    ∀ chunks idx db, insertChunksFrom name page chunks idx db
      = db ++ pageRowsFrom name page chunks idx := by
  intro chunks
  induction chunks with
  | nil => intro idx db; simp [insertChunksFrom, pageRowsFrom]
  | cons ch rest ih =>
    intro idx db
    show insertChunksFrom name page rest (idx + 1) (db ++ [⟨name, page, idx, ch⟩])
      = db ++ ⟨name, page, idx, ch⟩ :: pageRowsFrom name page rest (idx + 1)
    rw [ih (idx + 1)]
    simp

theorem insertPages_eq (name : List Char) :
    ∀ pages db, insertPages name pages db
      = db ++ pages.bind (fun p => pageRows name p.page (chunkText p.content 900 150)) := by
  intro pages
  induction pages with
  | nil => intro db; simp [insertPages]
  | cons p ps ih =>
    intro db
    show insertPages name ps
        (insertChunksFrom name p.page (chunkText p.content 900 150) 0 db) = _
    rw [ih, insertChunksFrom_eq]
    simp [pageRows]

theorem ingestFiles_eq : ∀ files db, ingestFiles files db
    = db ++ files.bind (fun f => (pagesOfFile f).bind (fun p =>
        pageRows f.name p.page (chunkText p.content 900 150))) := by
  intro files
  induction files with
  | nil => intro db; simp [ingestFiles]
  | cons f fs ih =>
    intro db
    show ingestFiles fs (insertPages f.name (pagesOfFile f) db) = _
    rw [ih, insertPages_eq]
    simp

theorem pageRowsFrom_indexes (name : List Char) (page : Nat) :
    ∀ chunks idx, (pageRowsFrom name page chunks idx).map ChunkRow.chunk_index
      = List.range' idx chunks.length := by
  intro chunks
  induction chunks with
  | nil => intro idx; rfl
  | cons ch rest ih =>
    intro idx
    show ChunkRow.chunk_index ⟨name, page, idx, ch⟩
        :: (pageRowsFrom name page rest (idx + 1)).map ChunkRow.chunk_index = _
    rw [ih (idx + 1)]
    rfl

/-- C8: chunk records are persisted in emission order — files in listing
order, within each file its pages in emission order, within each page its
chunks in index order (each row appended before the next chunk is processed,
reflecting the awaited embed+insert pair) — and within each page the
persisted `chunk_index` values are `0, 1, 2, ...` (0-based consecutive). -/
theorem C8_order (files : List FileInput) :
    ingestRun files
      = files.bind (fun f => (pagesOfFile f).bind (fun p =>
          pageRows f.name p.page (chunkText p.content 900 150)))
    ∧ ∀ name page chunks,
        (pageRows name page chunks).map ChunkRow.chunk_index
          = List.range chunks.length := by
  constructor
  · show ingestFiles files [] = _
    rw [ingestFiles_eq]
    simp
  · intro name page chunks
    show (pageRowsFrom name page chunks 0).map ChunkRow.chunk_index = _
    rw [pageRowsFrom_indexes, List.range_eq_range']

end ClaimC8

/-- State of the `createLimiter` closure: the `active` counter, the `queue`
of pending job ids (FIFO), the ids whose job has been invoked (`job()`), in
invocation order, and the ids currently in flight. -/
structure LimState where
  active : Nat
  queue : List Nat
  started : List Nat
  running : List Nat
deriving DecidableEq, Repr

/-- The state of a freshly created limiter. -/
def limInit : LimState := ⟨0, [], [], []⟩

/-- The `next()` closure: if a slot is free and a job is queued, shift the
front job and invoke it (`active++; job()`). -/
def limNext (max : Nat) (s : LimState) : LimState :=
  if max ≤ s.active then s
  else
    match s.queue with
    | [] => s
    | j :: rest =>
      ⟨s.active + 1, rest, s.started ++ [j], s.running ++ [j]⟩

/-- `limit(fn)`: push the wrapped job onto the queue, then `next()`. -/
def limSubmit (max : Nat) (id : Nat) (s : LimState) : LimState :=
  limNext max ⟨s.active, s.queue ++ [id], s.started, s.running⟩

/-- An in-flight job settles (its promise resolves or rejects):
`finally { active--; next(); }`. -/
def limFinish (max : Nat) (id : Nat) (s : LimState) : LimState :=
  if id ∈ s.running then
    limNext max ⟨s.active - 1, s.queue, s.started, s.running.erase id⟩
  else s

/-- An event of the limiter's life: a submission or a settlement. -/
inductive LimEvent where
  | submit (id : Nat)
  | finish (id : Nat)
deriving DecidableEq, Repr

/-- One event applied to the state. -/
def limStep (max : Nat) (s : LimState) : LimEvent → LimState
  | .submit id => limSubmit max id s
  | .finish id => limFinish max id s

/-- A sequence of events applied in order. -/
def limRun (max : Nat) : LimState → List LimEvent → LimState
  | s, [] => s
  | s, e :: es => limRun max (limStep max s e) es

/-- Ids submitted by a sequence of events, in submission order. -/
def submittedOf : List LimEvent → List Nat
  | [] => []
  | LimEvent.submit id :: es => id :: submittedOf es
  | LimEvent.finish _ :: es => submittedOf es

/-- Repeatedly settle the oldest in-flight job until none is running. -/
def drainLim (max : Nat) : Nat → LimState → LimState
  | 0, s => s
  | fuel + 1, s =>
    match s.running with
    | [] => s
    | id :: _ => drainLim max fuel (limFinish max id s)

section LimiterLemmas

theorem limNext_active_le {max : Nat} {s : LimState} (h : s.active ≤ max) :
    (limNext max s).active ≤ max := by
  unfold limNext
  split
  · exact h
  · rename_i hlt
    split
    · exact h
    · show s.active + 1 ≤ max
      omega

theorem limStep_active_le {max : Nat} {s : LimState} (e : LimEvent)
    (h : s.active ≤ max) : (limStep max s e).active ≤ max := by
  cases e with
  | submit id => exact limNext_active_le h
  | finish id =>
    show (limFinish max id s).active ≤ max
    unfold limFinish
    split
    · exact limNext_active_le (by show s.active - 1 ≤ max; omega)
    · exact h

theorem limRun_active_le (max : Nat) :
    ∀ events s, s.active ≤ max → (limRun max s events).active ≤ max := by
  intro events
  induction events with
  | nil => intro s h; exact h
  | cons e es ih =>
    intro s h
    exact ih (limStep max s e) (limStep_active_le e h)

theorem limNext_sq (max : Nat) (s : LimState) :
    (limNext max s).started ++ (limNext max s).queue = s.started ++ s.queue := by
  unfold limNext
  split
  · rfl
  · split
    · rfl
    · rename_i j rest heq
      show (s.started ++ [j]) ++ rest = s.started ++ s.queue
      rw [heq]
      simp

theorem limStep_sq (max : Nat) (s : LimState) : ∀ e : LimEvent,
    (limStep max s e).started ++ (limStep max s e).queue
      = s.started ++ s.queue ++ submittedOf [e] := by
  intro e
  cases e with
  | submit id =>
    show (limSubmit max id s).started ++ (limSubmit max id s).queue = _
    unfold limSubmit
    rw [limNext_sq]
    simp [submittedOf]
  | finish id =>
    show (limFinish max id s).started ++ (limFinish max id s).queue = _
    unfold limFinish
    split
    · rw [limNext_sq]
      simp [submittedOf]
    · simp [submittedOf]

theorem limRun_sq (max : Nat) : ∀ events s,
    (limRun max s events).started ++ (limRun max s events).queue
      = s.started ++ s.queue ++ submittedOf events := by
  intro events
  induction events with
  | nil => intro s; simp [limRun, submittedOf]
  | cons e es ih =>
    intro s
    show (limRun max (limStep max s e) es).started
        ++ (limRun max (limStep max s e) es).queue = _
    rw [ih (limStep max s e), limStep_sq]
    cases e <;> simp [submittedOf]

theorem submittedOf_map_submit : ∀ ids : List Nat,
    submittedOf (ids.map LimEvent.submit) = ids := by
  intro ids
  induction ids with
  | nil => rfl
  | cons id ids ih =>
    show id :: submittedOf (ids.map LimEvent.submit) = id :: ids
    rw [ih]

end LimiterLemmas

/-- The limiter's state invariant: `active` counts the in-flight jobs, never
exceeds `max`, a non-empty queue means all slots are taken, and no more jobs
are in flight than have been started. -/
def LimInv (max : Nat) (s : LimState) : Prop :=
  s.active = s.running.length ∧ s.active ≤ max ∧
  (s.queue ≠ [] → s.active = max) ∧ s.running.length ≤ s.started.length

section LimiterInvariant

theorem limInit_inv (max : Nat) : LimInv max limInit :=
  ⟨rfl, Nat.zero_le _, fun h => absurd rfl h, Nat.le_refl 0⟩

theorem limSubmit_inv {max id : Nat} {s : LimState} (h : LimInv max s) :
    LimInv max (limSubmit max id s) := by
  obtain ⟨h1, h2, h3, h4⟩ := h
  unfold limSubmit limNext
  split
  · rename_i hge
    have hge' : max ≤ s.active := hge
    have hx : s.active = max := by omega
    exact ⟨h1, h2, fun _ => hx, h4⟩
  · rename_i hlt
    have hlt' : ¬ max ≤ s.active := hlt
    have hq : s.queue = [] := by
      by_contra hne
      have := h3 hne
      omega
    rw [hq]
    show LimInv max ⟨s.active + 1, [], s.started ++ [id], s.running ++ [id]⟩
    refine ⟨?_, ?_, fun hne => absurd rfl hne, ?_⟩
    · show s.active + 1 = (s.running ++ [id]).length
      simp [h1]
    · show s.active + 1 ≤ max
      omega
    · show (s.running ++ [id]).length ≤ (s.started ++ [id]).length
      simp
      omega

theorem limFinish_inv {max id : Nat} {s : LimState} (h : LimInv max s) :
    LimInv max (limFinish max id s) := by
  obtain ⟨h1, h2, h3, h4⟩ := h
  unfold limFinish
  split
  · rename_i hmem
    have hpos : 0 < s.running.length :=
      List.length_pos.mpr (List.ne_nil_of_mem hmem)
    have herase : (s.running.erase id).length = s.running.length - 1 :=
      List.length_erase_of_mem hmem
    unfold limNext
    split
    · rename_i hge
      exfalso
      simp only at hge
      omega
    · rename_i hlt
      split
      · rename_i heq
        simp only at heq
        refine ⟨by simp only; omega, by simp only; omega, ?_, by simp only; omega⟩
        intro hne
        simp only at hne
        exact absurd heq hne
      · rename_i j rest heq
        simp only at heq
        have hmax : s.active = max := h3 (by rw [heq]; simp)
        refine ⟨by simp; omega, by simp only; omega, ?_, by simp; omega⟩
        intro _
        simp only
        omega
  · exact ⟨h1, h2, h3, h4⟩

theorem limStep_inv {max : Nat} {s : LimState} (e : LimEvent) (h : LimInv max s) :
    LimInv max (limStep max s e) := by
  cases e with
  | submit id => exact limSubmit_inv h
  | finish id => exact limFinish_inv h

theorem limRun_inv (max : Nat) : ∀ events s, LimInv max s →
    LimInv max (limRun max s events) := by
  intro events
  induction events with
  | nil => intro s h; exact h
  | cons e es ih => intro s h; exact ih (limStep max s e) (limStep_inv e h)

theorem limFinish_measure {max : Nat} {s : LimState} {id : Nat}
    (h : LimInv max s) (hmem : id ∈ s.running) (hmax : 1 ≤ max) :
    (limFinish max id s).active + (limFinish max id s).queue.length + 1
      ≤ s.active + s.queue.length := by
  obtain ⟨h1, h2, h3, h4⟩ := h
  have hpos : 0 < s.running.length :=
    List.length_pos.mpr (List.ne_nil_of_mem hmem)
  unfold limFinish
  rw [if_pos hmem]
  unfold limNext
  split
  · rename_i hge
    simp only at hge ⊢
    omega
  · rename_i hlt
    split
    · rename_i heq
      simp only at heq ⊢
      rw [heq]
      simp
      omega
    · rename_i j rest heq
      simp only at heq ⊢
      rw [heq]
      simp
      omega

theorem drainLim_spec (max : Nat) (hmax : 1 ≤ max) :
    ∀ fuel s, LimInv max s → s.active + s.queue.length ≤ fuel →
      (drainLim max fuel s).queue = []
      ∧ (drainLim max fuel s).started = s.started ++ s.queue := by
  intro fuel
  induction fuel with
  | zero =>
    intro s _ hm
    have hq : s.queue = [] := List.length_eq_zero.mp (by omega)
    show s.queue = [] ∧ s.started = s.started ++ s.queue
    rw [hq]
    simp
  | succ f ih =>
    intro s hinv hm
    cases hr : s.running with
    | nil =>
      obtain ⟨h1, h2, h3, h4⟩ := hinv
      rw [hr] at h1
      simp only [List.length_nil] at h1
      have hq : s.queue = [] := by
        cases hq : s.queue with
        | nil => rfl
        | cons a b =>
          exfalso
          have := h3 (by rw [hq]; simp)
          omega
      rw [show drainLim max (f + 1) s = s by unfold drainLim; rw [hr]]
      rw [hq]
      simp
    | cons id rest =>
      have hmem : id ∈ s.running := by rw [hr]; exact List.mem_cons_self id rest
      have hstep : drainLim max (f + 1) s = drainLim max f (limFinish max id s) := by
        show (match s.running with
          | [] => s
          | j :: _ => drainLim max f (limFinish max j s)) = _
        rw [hr]
      have hinv' := @limFinish_inv max id s hinv
      have hmeas := limFinish_measure hinv hmem hmax
      obtain ⟨hq', hs'⟩ := ih (limFinish max id s) hinv' (by omega)
      rw [hstep]
      refine ⟨hq', ?_⟩
      rw [hs']
      have hsq := limStep_sq max s (.finish id)
      simp only [submittedOf, List.append_nil] at hsq
      exact hsq

end LimiterInvariant

section ClaimC9

/-- C9 counterexample: with `createLimiter(0)` a submitted task is queued but
never started — no sequence of settlements can admit it, so the claim fails
as stated for `max = 0`. -/
theorem C9_counterexample :
    (limRun 0 limInit [LimEvent.submit 37]).queue = [37] ∧
    (drainLim 0 1 (limRun 0 limInit [LimEvent.submit 37])).started = [] := by
  decide

/-- C9 (amended, requiring `max ≥ 1`): at no point are more than `max` jobs
active; at every point the started jobs followed by the still-queued jobs
list exactly the submitted ids in submission order (so admission is FIFO);
and once every started job settles, every submitted task has been started, in
submission order, with an empty queue. -/
theorem C9_amended (max : Nat) (hmax : 1 ≤ max) (ids : List Nat) :
    (∀ events : List LimEvent, (limRun max limInit events).active ≤ max)
    ∧ (∀ events : List LimEvent,
        (limRun max limInit events).started ++ (limRun max limInit events).queue
          = submittedOf events)
    ∧ (drainLim max ids.length (limRun max limInit (ids.map LimEvent.submit))).started
        = ids
    ∧ (drainLim max ids.length (limRun max limInit (ids.map LimEvent.submit))).queue
        = [] := by
  have hrun_inv := limRun_inv max (ids.map LimEvent.submit) limInit (limInit_inv max)
  have hrun_sq := limRun_sq max (ids.map LimEvent.submit) limInit
  rw [submittedOf_map_submit] at hrun_sq
  rw [show limInit.started = [] from rfl, show limInit.queue = [] from rfl,
    List.nil_append, List.nil_append] at hrun_sq
  have hlen : (limRun max limInit (ids.map LimEvent.submit)).started.length
      + (limRun max limInit (ids.map LimEvent.submit)).queue.length = ids.length := by
    have := congrArg List.length hrun_sq
    simpa using this
  have hmeas : (limRun max limInit (ids.map LimEvent.submit)).active
      + (limRun max limInit (ids.map LimEvent.submit)).queue.length ≤ ids.length := by
    obtain ⟨h1, _, _, h4⟩ := hrun_inv
    omega
  obtain ⟨hqd, hsd⟩ := drainLim_spec max hmax ids.length
    (limRun max limInit (ids.map LimEvent.submit)) hrun_inv hmeas
  refine ⟨?_, ?_, ?_, hqd⟩
  · intro events
    exact limRun_active_le max events limInit (Nat.le_refl 0 |>.trans (Nat.zero_le max))
  · intro events
    have h := limRun_sq max events limInit
    simpa [limInit] using h
  · rw [hsd, hrun_sq]

/-- Witness for C9 (amended): five tasks through a limiter of width 2 all
start, in submission order. -/
theorem C9_amended_witness :
    (drainLim 2 ([10, 11, 12, 13, 14] : List Nat).length
        (limRun 2 limInit (([10, 11, 12, 13, 14] : List Nat).map LimEvent.submit))).started
      = [10, 11, 12, 13, 14] :=
  (C9_amended 2 (by norm_num) [10, 11, 12, 13, 14]).2.2.1

end ClaimC9
